import Mathlib

set_option linter.unusedSectionVars false
set_option linter.unnecessarySeqFocus false

/-!
Verification development for the `rrnn` sampling/pruning core
(`src/rrnn/sampler.py`, `src/rrnn/transformer.py`).

The Python code is shallowly embedded: float weights become elements of an
ordered field (instantiated at `ℚ` for executable witnesses and at `ℝ` where
the temperature power `w ^ (1/T)` is itself at stake), Python dicts become
insertion-ordered association lists with overwrite-on-repeat semantics, the
numpy random generator becomes an explicit tape of draw indices threaded
through the computation, and Python exceptions become an explicit error type.

External collaborators that are part of the repository but outside the two
embedded files (the `FSA` class, `State`, `Sym`, the semiring tag, `push`,
the random generator) are modelled from the specification's description of
their interface; every such definition carries a comment starting with
`Modelled from the spec:`.
-/

namespace RRNN

/-- Modelled from the spec: a `State` is an opaque identifier, unique within
an automaton (`rrnn/state.py` is not part of the embedded sources).  We use a
natural-number identifier.  Being an opaque object, a `State` is never equal
to the Python integer `0` that `Sampler._ancestral` uses as its stop
sentinel; the sentinel is kept as a separate constructor of `PKey` below. -/
abbrev StateId := Nat

/-- Modelled from the spec: a `Sym` is an opaque token (`rrnn/symbol.py` is
not part of the embedded sources); we represent it by its string form. -/
abbrev Sym := String

/-- Modelled from the spec: the empty-prefix marker `ε`. -/
def eps : Sym := "ε"

/-- Modelled from the spec: the end-of-sequence marker `EOS`. -/
def EOS : Sym := "EOS"

/-- Modelled from the spec: the semiring tag of an automaton; the sampler
only accepts the real semiring (`assert fsa.R == Real`). -/
inductive SRTag where
  | real : SRTag
  | other : SRTag
deriving DecidableEq, Repr

/-- The Python exceptions the embedded code can surface.  The constructor
`degenerateDistributionError` is modelled from the spec, which demands a
distinguishable error of that name for all-zero weight masses; the code in
`src/` never raises it (it has no such class), so no definition in this file
produces it.  The remaining constructors are the builtin/numpy exceptions the
code actually hits: `zeroDivisionError` from `x / 0` on Python floats,
`valueError` from `rng.choice(0, p=[])` on an empty candidate set, and
`keyError` from a missing dict key, `assertionError` from a failed
`assert`. -/
inductive PyErr where
  | zeroDivisionError : PyErr
  | valueError : PyErr
  | keyError : PyErr
  | assertionError : PyErr
  | degenerateDistributionError : PyErr
deriving DecidableEq, Repr

/-- Result marker for the embedded loops: a genuine Python exception, or
exhaustion of the fuel that bounds the (possibly non-terminating) sampling
loop in the embedding. -/
inductive Err where
  | py : PyErr → Err
  | fuel : Err
deriving DecidableEq, Repr

/-! ### Python dicts as insertion-ordered association lists -/

/-- A Python dict: an insertion-ordered association list. -/
abbrev Dict (κ β : Type) := List (κ × β)

/-- `d[k] = v` on a Python dict: overwrite in place when the key is present
(keeping its position), append otherwise. -/
def dinsert [DecidableEq κ] (k : κ) (v : β) (d : Dict κ β) : Dict κ β :=
  if d.any (fun p => p.1 = k) then
    d.map (fun p => if p.1 = k then (k, v) else p)
  else
    d ++ [(k, v)]

/-- A dict comprehension: build a dict from a list of key/value pairs in
order, later pairs overwriting earlier ones. -/
def dictOf [DecidableEq κ] (l : List (κ × β)) : Dict κ β :=
  l.foldl (fun d p => dinsert p.1 p.2 d) []

/-- Dict lookup (`d[k]`, as an `Option`). -/
def dget [DecidableEq κ] (d : Dict κ β) (k : κ) : Option β :=
  (d.find? (fun p => p.1 = k)).map Prod.snd

/-- The keys of a dict, in order. -/
def dkeys (d : Dict κ β) : List κ :=
  d.map Prod.fst

/-! ### The automaton interface -/

/-- Modelled from the spec: the automaton abstraction consumed by the core
(`rrnn/fsa.py` is not part of the embedded sources).  `Q` is the state set,
`Sigma` the alphabet, `arcs` the list of `(source, symbol, destination,
weight)` arcs, `I` the initial-weight mapping, `finals` the final-weight
mapping (states absent from it have final weight zero), `probabilistic` the
flag the sampler consults, and `Rtag` the semiring tag. -/
structure FSA (σ α : Type) where
  Q : List StateId
  Sigma : List σ
  arcs : List (StateId × σ × StateId × α)
  I : List (StateId × α)
  finals : List (StateId × α)
  probabilistic : Bool
  Rtag : SRTag
deriving DecidableEq, Repr

namespace FSA

/-- `self.A.arcs(q)`: the outgoing arcs of `q`, as `(symbol, destination,
weight)` triples. -/
def arcsOf (A : FSA σ α) (q : StateId) : List (σ × StateId × α) :=
  (A.arcs.filter (fun t => t.1 = q)).map (fun t => t.2)

/-- Modelled from the spec: `self.A.ρ[q]`, the final weight of `q`, zero if
`q` is non-final. -/
def ρ [Zero α] (A : FSA σ α) (q : StateId) : α :=
  ((A.finals.find? (fun p => p.1 = q)).map Prod.snd).getD 0

end FSA

/-! ### The sampler (`src/rrnn/sampler.py`)

The temperature scaling `Sampler._w` (`float(w) ** (1 / self.T)`) is kept
abstract as a function parameter `φ : α → α` in the loop embeddings; claim
C5 instantiates it at `fun w => w ^ (1/T)` over `ℝ`.  The numpy generator is
a tape `Nat → Nat` of draw indices; `Sampler._draw` consumes its head. -/

namespace Sampler

/-- Modelled from the spec: the random generator the core consumes, as an
infinite tape of raw indices. -/
abbrev Tape := Nat → Nat

/-- Drop the consumed head of the tape. -/
def tapeTail (t : Tape) : Tape := fun n => t (n + 1)

/-- `Sampler._draw` (sampler.py lines 34-37): pick one key of the options
dict using the generator.  `rng.choice(0, p=[])` on an empty candidate set
raises `ValueError`; otherwise some key is returned (which key is controlled
by the tape) and the generator advances. -/
def draw (t : Tape) (d : Dict κ α) : Except PyErr (κ × Tape) :=
  if h : d.length = 0 then
    .error .valueError
  else
    .ok ((d.get ⟨t 0 % d.length, Nat.mod_lt _ (Nat.pos_of_ne_zero h)⟩).1, tapeTail t)

/-- The key type of the options dict of `Sampler._ancestral`: the Python
dict maps `(symbol, destination)` tuples, plus the synthetic stop entry
`(0, 0)` made of two Python `int`s.  An opaque `Sym`/`State` never equals
the `int` `0`, so the stop entry is a separate constructor. -/
inductive PKey where
  | arc : Sym → StateId → PKey
  | stop : PKey
deriving DecidableEq, Repr

/-- `Z = sum(_w(w) for arcs) + _w(ρ[q])` (sampler.py lines 78 and 119). -/
def Zout [Field α] (φ : α → α) (A : FSA Sym α) (q : StateId) : α :=
  ((A.arcsOf q).map (fun t => φ t.2.2)).sum + φ (A.ρ q)

/-- The options dict of `Sampler._ancestral` (lines 79-80): one entry per
outgoing arc keyed `(symbol, destination)` with value `_w(w)/Z`, then the
stop entry `(0, 0)` with value `_w(ρ[q])/Z` inserted last. -/
def ancestralDist [Field α] [DecidableEq α] (φ : α → α) (A : FSA Sym α) (q : StateId) :
    Dict PKey α :=
  dinsert PKey.stop (φ (A.ρ q) / Zout φ A q)
    (dictOf ((A.arcsOf q).map (fun t => (PKey.arc t.1 t.2.1, φ t.2.2 / Zout φ A q))))

/-- Lines 78-80 with Python float semantics: when `Z` is zero the division
in the comprehension (or, with no arcs, in the stop entry) raises
`ZeroDivisionError`. -/
def ancestralOptions [Field α] [DecidableEq α] (φ : α → α) (A : FSA Sym α) (q : StateId) :
    Except PyErr (Dict PKey α) :=
  if Zout φ A q = 0 then .error .zeroDivisionError
  else .ok (ancestralDist φ A q)

/-- The loop of `Sampler._ancestral` (lines 77-84).  Called whenever the
loop condition `q != 0` holds, i.e. whenever the loop variable holds an
opaque `State` rather than the stop sentinel; drawing the stop entry sets
the pair `(0, 0)`, appends nothing (`a != 0` fails) and the condition ends
the loop, while drawing an arc entry appends the symbol (a `Sym` is never
the `int` `0`) and continues from the drawn destination — whatever its
identifier, including `0`. -/
def ancestralGo [Field α] [DecidableEq α] (φ : α → α) (A : FSA Sym α) :
    Nat → Tape → StateId → List Sym → Except Err (List Sym × Tape)
  | 0, _, _, _ => .error .fuel
  | fuel + 1, t, q, y =>
    match ancestralOptions φ A q with
    | .error e => .error (.py e)
    | .ok opts =>
      match draw t opts with
      | .error e => .error (.py e)
      | .ok (k, t') =>
        match k with
        | .stop => .ok (y, t')
        | .arc a q' => ancestralGo φ A fuel t' q' (y ++ [a])

/-- The initial-state dict of `Sampler._ancestral` / `_ancestral_lm`
(lines 74-75 and 108-109): `{p: _w(w)/Z for p, w in I}`. -/
def initTable [Field α] (φ : α → α) (A : FSA Sym α) : Dict StateId α :=
  dictOf (A.I.map (fun p => (p.1, φ p.2 / (A.I.map (fun r => φ r.2)).sum)))

/-- `Sampler._ancestral` (lines 72-86), returning the emitted symbols and
the advanced generator.  With a nonempty `I` whose scaled weights sum to
zero the comprehension's division raises `ZeroDivisionError`; with an empty
`I` the dict is empty and the draw raises `ValueError`. -/
def ancestral [Field α] [DecidableEq α] (φ : α → α) (A : FSA Sym α) (t : Tape) (fuel : Nat) :
    Except Err (List Sym × Tape) :=
  if A.I ≠ [] ∧ (A.I.map (fun r => φ r.2)).sum = 0 then .error (.py .zeroDivisionError)
  else
    match draw t (initTable φ A) with
    | .error e => .error (.py e)
    | .ok (q, t') => ancestralGo φ A fuel t' q []

/-- `Sampler._ancestral`, keeping only the emitted sequence. -/
def ancestralY [Field α] [DecidableEq α] (φ : α → α) (A : FSA Sym α) (t : Tape) (fuel : Nat) :
    Except Err (List Sym) :=
  (ancestral φ A t fuel).map (fun p => p.1)

/-- `Zqa[b]` (lines 120-123): the scaled mass of arcs leaving `q` labelled
`b`. -/
def Zqa [Field α] (φ : α → α) (A : FSA Sym α) (q : StateId) (b : Sym) : α :=
  (((A.arcsOf q).filter (fun t => t.1 = b)).map (fun t => φ t.2.2)).sum

/-- The inner sum of lines 133-145: the scaled mass of arcs leaving `q`
labelled `b` and landing in `q'`. -/
def ZqaTo [Field α] (φ : α → α) (A : FSA Sym α) (q : StateId) (b : Sym) (q' : StateId) : α :=
  (((A.arcsOf q).filter (fun t => t.1 = b ∧ t.2.1 = q')).map (fun t => φ t.2.2)).sum

/-- The marginal next-symbol dict `pa` (lines 126-130): `Zqa[b]/Zq` for each
alphabet symbol, then the `EOS` entry `_w(ρ[q])/Zq`. -/
def mkPa [LinearOrderedField α] (φ : α → α) (A : FSA Sym α) (q : StateId) : Dict Sym α :=
  dinsert EOS (φ (A.ρ q) / Zout φ A q)
    (dictOf (A.Sigma.map (fun b => (b, Zqa φ A q b / Zout φ A q))))

/-- The belief dict `pq_a` (lines 133-145): only symbols with strictly
positive arc mass get an entry; the entry is a dict over all of `Q`. -/
def mkBeliefs [LinearOrderedField α] (φ : α → α) (A : FSA Sym α) (q : StateId) :
    Dict Sym (Dict StateId α) :=
  dictOf (((A.Sigma.filter (fun b => 0 < Zqa φ A q b))).map
    (fun b => (b, dictOf (A.Q.map (fun q' => (q', ZqaTo φ A q b q' / Zqa φ A q b))))))

/-- The loop of `Sampler._ancestral_lm` (lines 115-148): while the last
symbol is not `EOS`, look the symbol up in the belief dict (`KeyError` if
absent), draw a state, normalize by `Zq` (`ZeroDivisionError` when zero),
transform the marginal dict, draw the next symbol and append it. -/
def lmGo [LinearOrderedField α] (φ : α → α) (A : FSA Sym α)
    (transform : List Sym → Dict Sym α → Dict Sym α) :
    Nat → Tape → Dict Sym (Dict StateId α) → Sym → List Sym → Except Err (List Sym × Tape)
  | 0, _, _, _, _ => .error .fuel
  | fuel + 1, t, pqa, a, y =>
    if a = EOS then .ok (y, t)
    else
      match dget pqa a with
      | none => .error (.py .keyError)
      | some belief =>
        match draw t belief with
        | .error e => .error (.py e)
        | .ok (q, t') =>
          if Zout φ A q = 0 then .error (.py .zeroDivisionError)
          else
            match draw t' (transform y (mkPa φ A q)) with
            | .error e => .error (.py e)
            | .ok (b, t'') => lmGo φ A transform fuel t'' (mkBeliefs φ A q) b (y ++ [b])

/-- `Sampler._ancestral_lm` (lines 88-150): belief at the empty prefix is
the scaled, normalized initial-weight dict, the output starts as `[ε]`, and
the returned value is the whole accumulated list `y`. -/
def lmRun [LinearOrderedField α] (φ : α → α) (A : FSA Sym α)
    (transform : List Sym → Dict Sym α → Dict Sym α) (t : Tape) (fuel : Nat) :
    Except Err (List Sym × Tape) :=
  if A.I ≠ [] ∧ (A.I.map (fun r => φ r.2)).sum = 0 then .error (.py .zeroDivisionError)
  else lmGo φ A transform fuel t (dictOf [(eps, initTable φ A)]) eps [eps]

/-- `Sampler._ancestral_lm`, keeping only the returned sequence. -/
def lmY [LinearOrderedField α] (φ : α → α) (A : FSA Sym α)
    (transform : List Sym → Dict Sym α → Dict Sym α) (t : Tape) (fuel : Nat) :
    Except Err (List Sym) :=
  (lmRun φ A transform t fuel).map (fun p => p.1)

/-- The `to_string` branch of line 150: join the string forms of all the
elements of `y` — the leading `ε` included. -/
def lmString [LinearOrderedField α] (φ : α → α) (A : FSA Sym α)
    (transform : List Sym → Dict Sym α → Dict Sym α) (t : Tape) (fuel : Nat) :
    Except Err String :=
  (lmY φ A transform t fuel).map (fun y => String.join y)

/-- The state of a constructed `Sampler`: the working automaton, the
temperature-scaling function `_w`, and the generator. -/
structure St (α : Type) where
  A : FSA Sym α
  scale : α → α
  tape : Tape

/-- `Sampler.__init__` (lines 19-32): assert the real semiring (a failed
Python `assert` raises `AssertionError`), then keep the automaton unchanged
when it is probabilistic and replace it by `push fsa` otherwise; `push` and
the seeded generator `gen` are the external collaborators. -/
def mk (push : FSA Sym α → FSA Sym α) (gen : Nat → Tape) (fsa : FSA Sym α)
    (scale : α → α) (seed : Nat) : Except Err (St α) :=
  if fsa.Rtag = SRTag.real then
    .ok (St.mk (if fsa.probabilistic then fsa else push fsa) scale (gen seed))
  else
    .error (.py .assertionError)

/-- The loop of `Sampler.sample` (lines 64-67): `K` samples drawn
sequentially from one generator, each by `_ancestral_lm` (with `lm`) or
`_ancestral`. -/
def sampleKgo [LinearOrderedField α] (φ : α → α) (A : FSA Sym α)
    (transform : List Sym → Dict Sym α → Dict Sym α) (lm : Bool) (fuel : Nat) :
    Nat → Tape → Except Err (List (List Sym))
  | 0, _ => .ok []
  | K + 1, t =>
    match (if lm then lmRun φ A transform t fuel else ancestral φ A t fuel) with
    | .error e => .error e
    | .ok (y, t') =>
      match sampleKgo φ A transform lm fuel K t' with
      | .error e => .error e
      | .ok ys => .ok (y :: ys)

/-- Construct a sampler from a seed and run `sample(K)`: the composition
whose determinism claim C8 is about. -/
def sampleRun [LinearOrderedField α] (push : FSA Sym α → FSA Sym α) (gen : Nat → Tape)
    (fsa : FSA Sym α) (scale : α → α) (seed : Nat)
    (transform : List Sym → Dict Sym α → Dict Sym α) (lm : Bool) (fuel K : Nat) :
    Except Err (List (List Sym)) :=
  match mk push gen fsa scale seed with
  | .error e => .error e
  | .ok s => sampleKgo s.scale s.A transform lm fuel K s.tape

end Sampler

/-! ### The pruner (`src/rrnn/transformer.py`)

`Transformer.trim` is embedded verbatim; the reachability queries
`F.accessible()` / `F.coaccessible()` and the mutation interface `spawn`,
`add_arc`, `set_I`, `set_F` live in `rrnn/fsa.py`, outside the embedded
sources, and are modelled from the spec (worklist graph reachability and an
append-style mutation interface). -/

namespace Transformer

/-- The forward successors of `q` along `arcs`. -/
def succs (arcs : List (StateId × σ × StateId × α)) (q : StateId) : List StateId :=
  (arcs.filter (fun t => t.1 = q)).map (fun t => t.2.2.1)

/-- One round of forward closure: a set together with all successors of its
members. -/
def stepSet [DecidableEq σ] [DecidableEq α]
    (arcs : List (StateId × σ × StateId × α)) (S : List StateId) : List StateId :=
  (S ++ S.flatMap (succs arcs)).dedup

/-- Fixed-point iteration of `stepSet`, stopping early once closed. -/
def iterFix [DecidableEq σ] [DecidableEq α]
    (arcs : List (StateId × σ × StateId × α)) : Nat → List StateId → List StateId
  | 0, S => S
  | n + 1, S =>
    if (stepSet arcs S).all (fun q => q ∈ S) then S
    else iterFix arcs n (stepSet arcs S)

/-- Enough fuel to saturate the closure: the number of distinct states that
can ever appear (seeds plus arc destinations). -/
def closureFuel (arcs : List (StateId × σ × StateId × α)) (S₀ : List StateId) : Nat :=
  ((S₀ ++ arcs.map (fun t => t.2.2.1)).dedup).length

/-- The set of states reachable from the seed set `S₀` along `arcs`. -/
def reachSet [DecidableEq σ] [DecidableEq α]
    (arcs : List (StateId × σ × StateId × α)) (S₀ : List StateId) : List StateId :=
  iterFix arcs (closureFuel arcs S₀) S₀.dedup

/-- Modelled from the spec: `F.accessible()`, the states reachable by
following arcs forward from any initial state. -/
def accessible [DecidableEq σ] [DecidableEq α] (F : FSA σ α) : List StateId :=
  reachSet F.arcs (F.I.map (fun p => p.1))

/-- The arcs of `F` reversed (for co-accessibility as forward reachability
in the reversed graph). -/
def revArcs (F : FSA σ α) : List (StateId × σ × StateId × α) :=
  F.arcs.map (fun t => (t.2.2.1, t.2.1, t.1, t.2.2.2))

/-- Modelled from the spec: `F.coaccessible()`, the states from which some
final state (one with `ρ(q) > 0`) is reachable. -/
def coaccessible [DecidableEq σ] [DecidableEq α] [Zero α] [LT α]
    [∀ a b : α, Decidable (a < b)] (F : FSA σ α) : List StateId :=
  reachSet (revArcs F) ((F.finals.filter (fun p => 0 < p.2)).map (fun p => p.1))

/-- Modelled from the spec: `F.spawn()`, a fresh empty automaton of the same
kind (same alphabet and semiring, no states, arcs or weights). -/
def spawn (F : FSA σ α) : FSA σ α :=
  FSA.mk [] F.Sigma [] [] [] F.probabilistic F.Rtag

/-- Insert a state into the state set if not already present. -/
def qInsert (Q : List StateId) (q : StateId) : List StateId :=
  if q ∈ Q then Q else Q ++ [q]

/-- Modelled from the spec: `T.add_arc(i, a, j, w)` records the arc and its
endpoint states. -/
def add_arc (T : FSA σ α) (i : StateId) (a : σ) (j : StateId) (w : α) : FSA σ α :=
  FSA.mk (qInsert (qInsert T.Q i) j) T.Sigma (T.arcs ++ [(i, a, j, w)]) T.I T.finals
    T.probabilistic T.Rtag

/-- Modelled from the spec: `T.set_I(q, w)` records the initial weight and
the state. -/
def set_I (T : FSA σ α) (q : StateId) (w : α) : FSA σ α :=
  FSA.mk (qInsert T.Q q) T.Sigma T.arcs (T.I ++ [(q, w)]) T.finals T.probabilistic T.Rtag

/-- Modelled from the spec: `T.set_F(q, w)` records the final weight and the
state. -/
def set_F (T : FSA σ α) (q : StateId) (w : α) : FSA σ α :=
  FSA.mk (qInsert T.Q q) T.Sigma T.arcs T.I (T.finals ++ [(q, w)]) T.probabilistic T.Rtag

/-- `Transformer._add_trim_arcs` (transformer.py lines 9-20), single-label
branch: for every `i` in `AC` copy each outgoing arc of `i` whose
destination is also in `AC`. -/
def addTrimArcs [DecidableEq StateId] (F : FSA σ α) (T : FSA σ α) (AC : List StateId) :
    FSA σ α :=
  AC.foldl
    (fun T i =>
      (F.arcsOf i).foldl
        (fun T t => if t.2.1 ∈ AC then add_arc T i t.1 t.2.1 t.2.2 else T) T)
    T

/-- `Transformer.trim` (transformer.py lines 22-44): intersect the
accessible and co-accessible sets, copy the surviving arcs into a spawned
automaton, then the surviving initial and final weights. -/
def trim [DecidableEq σ] [DecidableEq α] [Zero α] [LT α]
    [∀ a b : α, Decidable (a < b)] (F : FSA σ α) : FSA σ α :=
  let AC := (accessible F).filter (fun q => q ∈ coaccessible F)
  let T := addTrimArcs F (spawn F) AC
  let T := F.I.foldl (fun T p => if p.1 ∈ AC then set_I T p.1 p.2 else T) T
  F.finals.foldl (fun T p => if p.1 ∈ AC then set_F T p.1 p.2 else T) T

/-- The intersected retained set `AC = A ∩ C` of `trim`. -/
def trimAC [DecidableEq σ] [DecidableEq α] [Zero α] [LT α]
    [∀ a b : α, Decidable (a < b)] (F : FSA σ α) : List StateId :=
  (accessible F).filter (fun q => q ∈ coaccessible F)

end Transformer

/-! ### Distribution semantics of the two sampling procedures

`plainP φ A q s` is the probability that, continuing from state `q`, the
plain ancestral loop (sampler.py lines 77-85) emits exactly the symbols `s`
and then stops: at each step an arc entry of the options dict is drawn with
its probability `_w(w)/Z` and the stop entry with `_w(ρ[q])/Z`.  Under the
arc-uniqueness invariant of the automaton (claim C1 proves the dict carries
exactly these per-arc entries) this is the loop's per-step distribution.

`lmP φ A q s` is the probability that, from drawn state `q`, the
autoregressive loop with the identity transform (lines 115-148) emits the
symbols `s` followed by `EOS`: each step draws a symbol `b` from the
marginal `pa` (`Zqa[b]/Zq`, and `pa[EOS] = _w(ρ[q])/Zq`), then the next
state from the belief `pq_a[b]` (`ZqaTo/Zqa`, present only when
`Zqa[b] > 0`; a zero-mass symbol is drawn with probability zero, matching
the guarded branch). -/

namespace Sampler

/-- Per-step distribution semantics of the plain ancestral loop. -/
def plainP [Field α] (φ : α → α) (A : FSA Sym α) : StateId → List Sym → α
  | q, [] => φ (A.ρ q) / Zout φ A q
  | q, b :: s =>
    ((A.arcsOf q).map
      (fun t => if t.1 = b then (φ t.2.2 / Zout φ A q) * plainP φ A t.2.1 s else 0)).sum

/-- Per-step distribution semantics of the autoregressive loop with the
identity transform. -/
def lmP [LinearOrderedField α] (φ : α → α) (A : FSA Sym α) : StateId → List Sym → α
  | q, [] => φ (A.ρ q) / Zout φ A q
  | q, b :: s =>
    if b ∈ A.Sigma ∧ 0 < Zqa φ A q b then
      (Zqa φ A q b / Zout φ A q) *
        ((A.Q.map (fun q' => (ZqaTo φ A q b q' / Zqa φ A q b) * lmP φ A q' s)).sum)
    else 0

/-- Probability that a full plain ancestral run emits `s`: draw the start
state from the scaled, normalized initial weights, then run the loop. -/
def plainFull [Field α] (φ : α → α) (A : FSA Sym α) (s : List Sym) : α :=
  (A.I.map (fun p => (φ p.2 / (A.I.map (fun r => φ r.2)).sum) * plainP φ A p.1 s)).sum

/-- Probability that a full autoregressive run (identity transform) emits
`ε`, then the symbols of `s`, then `EOS`. -/
def lmFull [LinearOrderedField α] (φ : α → α) (A : FSA Sym α) (s : List Sym) : α :=
  (A.I.map (fun p => (φ p.2 / (A.I.map (fun r => φ r.2)).sum) * lmP φ A p.1 s)).sum

end Sampler

/-! ### Dict and list-sum lemmas -/

theorem dget_nil [DecidableEq κ] (k : κ) : dget ([] : Dict κ β) k = none := rfl

theorem dget_cons [DecidableEq κ] (p : κ × β) (d : Dict κ β) (k : κ) :
    dget (p :: d) k = if p.1 = k then some p.2 else dget d k := by
  by_cases h : p.1 = k
  · simp [dget, List.find?_cons_of_pos, h]
  · simp [dget, List.find?_cons_of_neg, h]

theorem dget_append [DecidableEq κ] (d₁ d₂ : Dict κ β) (k : κ) :
    dget (d₁ ++ d₂) k = ((dget d₁ k).or (dget d₂ k)) := by
  induction d₁ with
  | nil => simp [dget_nil]
  | cons p d ih =>
    rw [List.cons_append, dget_cons, dget_cons]
    by_cases h : p.1 = k <;> simp [h, ih]

theorem dget_isSome [DecidableEq κ] (d : Dict κ β) (k : κ) :
    (dget d k).isSome = true ↔ k ∈ dkeys d := by
  induction d with
  | nil => simp [dget_nil, dkeys]
  | cons p d ih =>
    rw [dget_cons]
    by_cases h : p.1 = k <;> simp [h, dkeys, ih] <;> simp [dkeys] at ih <;> tauto

theorem dget_eq_none [DecidableEq κ] (d : Dict κ β) (k : κ) :
    dget d k = none ↔ ¬ k ∈ dkeys d := by
  rw [← dget_isSome]
  cases dget d k <;> simp

/-- On a pair list whose keys are distinct, a Python dict comprehension
keeps the list as it is. -/
theorem dictOf_nodupKeys [DecidableEq κ] (l : Dict κ β) (h : (l.map Prod.fst).Nodup) :
    dictOf l = l := by
  have main : ∀ (l acc : Dict κ β), ((acc ++ l).map Prod.fst).Nodup →
      l.foldl (fun d p => dinsert p.1 p.2 d) acc = acc ++ l := by
    intro l
    induction l with
    | nil => intro acc _; simp
    | cons p l ih =>
      intro acc hnd
      have hp : ¬ acc.any (fun r => r.1 = p.1) = true := by
        simp only [List.map_append, List.nodup_append] at hnd
        intro hc
        rcases List.any_eq_true.mp hc with ⟨r, hr, hrp⟩
        have h1 : r.1 ∈ acc.map Prod.fst := List.mem_map_of_mem Prod.fst hr
        have h2 : r.1 ∈ (p :: l).map Prod.fst := by
          have : r.1 = p.1 := by simpa using hrp
          simp [this]
        exact hnd.2.2 h1 h2
      have step : dinsert p.1 p.2 acc = acc ++ [p] := by
        simp only [dinsert, hp, if_false]
        rfl
      have : (((acc ++ [p]) ++ l).map Prod.fst).Nodup := by
        simpa [List.append_assoc] using hnd
      calc (p :: l).foldl (fun d r => dinsert r.1 r.2 d) acc
          = l.foldl (fun d r => dinsert r.1 r.2 d) (dinsert p.1 p.2 acc) := by
            simp [List.foldl_cons]
        _ = (acc ++ [p]) ++ l := by rw [step]; exact ih (acc ++ [p]) this
        _ = acc ++ p :: l := by simp
  simpa using main l [] (by simpa using h)

/-- Looking up `k` in a pair list generated by a key function returns the
value at `k` exactly when `k` occurs among the keys. -/
theorem dget_map_keyfun [DecidableEq κ] (f : κ → β) (l : List κ) (k : κ) :
    dget (l.map (fun b => (b, f b))) k = if k ∈ l then some (f k) else none := by
  induction l with
  | nil => simp [dget_nil]
  | cons b l ih =>
    rw [List.map_cons, dget_cons]
    by_cases h : b = k
    · subst h; simp
    · simp only [h, if_false, ih]
      by_cases hk : k ∈ l <;> simp [hk, h, Ne.symm h]

theorem dget_dinsert_self [DecidableEq κ] (k : κ) (v : β) (d : Dict κ β) :
    dget (dinsert k v d) k = some v := by
  unfold dinsert
  by_cases h : d.any (fun p => p.1 = k) = true
  · simp only [h, if_true]
    induction d with
    | nil => simp at h
    | cons p d ih =>
      by_cases hp : p.1 = k
      · simp [dget_cons, hp]
      · simp only [List.any_cons, hp, decide_eq_true_eq, false_or, Bool.false_or] at h
        simp [dget_cons, hp, ih h]
  · rw [if_neg h, dget_append]
    have hnone : dget d k = none := by
      rw [dget_eq_none]
      intro hk
      rcases List.mem_map.mp hk with ⟨p, hp, hpk⟩
      exact h (List.any_eq_true.mpr ⟨p, hp, by simpa using hpk⟩)
    rw [hnone]
    simp [dget_cons, dget_nil]

theorem dget_overwrite_of_ne [DecidableEq κ] (k k' : κ) (v : β) (d : Dict κ β)
    (h : k' ≠ k) :
    dget (d.map (fun p => if p.1 = k then (k, v) else p)) k' = dget d k' := by
  induction d with
  | nil => simp [dget_nil]
  | cons p d ih =>
    rw [List.map_cons, dget_cons, dget_cons]
    by_cases hp : p.1 = k
    · have hkk' : ¬ (k = k') := fun hc => h hc.symm
      simp only [hp, if_true, hkk', if_false]
      exact ih
    · simp only [hp, if_false]
      by_cases h2 : p.1 = k'
      · simp [h2]
      · simp [h2, ih]

/-- A list of nonnegative terms summing to zero has only zero terms. -/
theorem sum_map_eq_zero_nonneg [LinearOrderedField α] (l : List A) (f : A → α)
    (hpos : ∀ x ∈ l, 0 ≤ f x) (hsum : (l.map f).sum = 0) : ∀ x ∈ l, f x = 0 := by
  induction l with
  | nil => intro x hx; cases hx
  | cons a l ih =>
    have ha : 0 ≤ f a := hpos a (List.mem_cons_self a l)
    have hl : 0 ≤ (l.map f).sum :=
      List.sum_nonneg (by
        intro x hx
        rcases List.mem_map.mp hx with ⟨b, hb, hbx⟩
        exact hbx ▸ hpos b (List.mem_cons_of_mem a hb))
    rw [List.map_cons, List.sum_cons] at hsum
    have ha0 : f a = 0 := le_antisymm (by linarith) ha
    have hl0 : (l.map f).sum = 0 := by linarith
    intro x hx
    rcases List.mem_cons.mp hx with hx | hx
    · exact hx ▸ ha0
    · exact ih (fun y hy => hpos y (List.mem_cons_of_mem a hy)) hl0 x hx

/-- Summing an indicator over a duplicate-free list that contains the
distinguished element picks out the single value at it. -/
theorem sum_map_ite_single [DecidableEq B] [AddCommMonoid M] (Q : List B) (b : B)
    (c : B → M) (hnd : Q.Nodup) (hb : b ∈ Q) :
    (Q.map (fun q => if q = b then c q else 0)).sum = c b := by
  induction Q with
  | nil => cases hb
  | cons a Q ih =>
    rw [List.map_cons, List.sum_cons]
    rcases List.mem_cons.mp hb with hab | hb'
    · subst hab
      have : ∀ q ∈ Q, (if q = b then c q else 0) = 0 := by
        intro q hq
        have : q ≠ b := fun hc => ((List.nodup_cons.mp hnd).1 (hc ▸ hq))
        simp [this]
      rw [if_pos rfl, List.sum_eq_zero (by
        intro x hx
        rcases List.mem_map.mp hx with ⟨q, hq, hqx⟩
        exact hqx ▸ this q hq)]
      simp
    · have hab : a ≠ b := by
        intro hc
        exact (List.nodup_cons.mp hnd).1 (hc ▸ hb')
      rw [if_neg hab, ih (List.nodup_cons.mp hnd).2 hb']
      simp

/-- Partitioning a sum over a list by a key drawn from a duplicate-free
covering list. -/
theorem sum_partition [DecidableEq B] [AddCommMonoid M] (l : List A) (Q : List B)
    (key : A → B) (f : A → M) (hnd : Q.Nodup) (hmem : ∀ x ∈ l, key x ∈ Q) :
    (Q.map (fun q => (((l.filter (fun x => key x = q))).map f).sum)).sum = (l.map f).sum := by
  induction l with
  | nil => simp
  | cons a l ih =>
    have hstep : ∀ q : B, (((a :: l).filter (fun x => key x = q)).map f).sum
        = (if q = key a then f a else 0) + ((l.filter (fun x => key x = q)).map f).sum := by
      intro q
      by_cases hq : key a = q
      · rw [List.filter_cons_of_pos (by simpa using hq), List.map_cons, List.sum_cons,
          if_pos hq.symm]
      · rw [List.filter_cons_of_neg (by simpa using hq), if_neg (fun hc => hq hc.symm),
          zero_add]
    have hsplit : (Q.map (fun q => (((a :: l).filter (fun x => key x = q)).map f).sum)).sum
        = (Q.map (fun q => if q = key a then f a else 0)).sum
          + (Q.map (fun q => ((l.filter (fun x => key x = q)).map f).sum)).sum := by
      rw [← List.sum_map_add]
      congr 1
      exact List.map_congr_left (fun q _ => hstep q)
    rw [hsplit, sum_map_ite_single Q (key a) (fun _ => f a) hnd
        (hmem a (List.mem_cons_self a l)),
      ih (fun x hx => hmem x (List.mem_cons_of_mem a hx))]
    simp

theorem dget_dinsert_of_ne [DecidableEq κ] (k k' : κ) (v : β) (d : Dict κ β)
    (h : k' ≠ k) : dget (dinsert k v d) k' = dget d k' := by
  unfold dinsert
  by_cases ha : d.any (fun p => p.1 = k) = true
  · rw [if_pos ha]
    exact dget_overwrite_of_ne k k' v d h
  · rw [if_neg ha, dget_append]
    have hone : dget [(k, v)] k' = none := by
      rw [dget_cons]
      simp [Ne.symm h, dget_nil]
    rw [hone]
    cases dget d k' <;> rfl

/-- In a dict with duplicate-free keys, membership of a pair determines the
lookup. -/
theorem dget_of_mem_nodup [DecidableEq κ] (l : Dict κ β) (k : κ) (v : β)
    (hnd : (l.map Prod.fst).Nodup) (hmem : (k, v) ∈ l) : dget l k = some v := by
  induction l with
  | nil => cases hmem
  | cons p l ih =>
    rcases List.mem_cons.mp hmem with hp | hp
    · rw [← hp, dget_cons]
      simp
    · have hk : k ∈ l.map Prod.fst := List.mem_map.mpr ⟨(k, v), hp, rfl⟩
      have hne : ¬ p.1 = k := by
        intro hc
        exact (List.nodup_cons.mp (by simpa using hnd)).1 (hc ▸ hk)
      rw [dget_cons, if_neg hne]
      exact ih (List.nodup_cons.mp (by simpa using hnd)).2 hp

namespace Sampler

/-- A successful draw returns one of the dict's keys. -/
theorem draw_mem (t : Tape) (d : Dict κ α) (k : κ) (t' : Tape)
    (h : draw t d = .ok (k, t')) : k ∈ dkeys d := by
  unfold draw at h
  by_cases hl : d.length = 0
  · rw [dif_pos hl] at h; cases h
  · rw [dif_neg hl] at h
    have hk : k = (d.get ⟨t 0 % d.length, Nat.mod_lt _ (Nat.pos_of_ne_zero hl)⟩).1 := by
      cases h; rfl
    rw [hk]
    exact List.mem_map_of_mem Prod.fst (d.get_mem _ _)

/-- Drawing from an empty dict raises `ValueError` (numpy's
`rng.choice(0, p=[])`). -/
theorem draw_nil (t : Tape) : draw t ([] : Dict κ α) = .error .valueError := rfl

/-- Drawing from a nonempty dict succeeds. -/
theorem draw_ok (t : Tape) (d : Dict κ α) (h : d ≠ []) :
    ∃ k t', draw t d = .ok (k, t') := by
  unfold draw
  have hl : ¬ d.length = 0 := by simpa using h
  rw [dif_neg hl]
  exact ⟨_, _, rfl⟩

/-- Under the arc-uniqueness invariant the options dict of `_ancestral` is
literally the per-arc entries, in arc order, followed by the stop entry. -/
theorem ancestralDist_eq [Field α] [DecidableEq α] (φ : α → α) (A : FSA Sym α) (q : StateId)
    (hnd : ((A.arcsOf q).map (fun t => PKey.arc t.1 t.2.1)).Nodup) :
    ancestralDist φ A q =
      ((A.arcsOf q).map (fun t => (PKey.arc t.1 t.2.1, φ t.2.2 / Zout φ A q)))
        ++ [(PKey.stop, φ (A.ρ q) / Zout φ A q)] := by
  unfold ancestralDist
  have hkeys : (((A.arcsOf q).map
      (fun t => (PKey.arc t.1 t.2.1, φ t.2.2 / Zout φ A q))).map Prod.fst).Nodup := by
    rw [List.map_map]
    exact hnd
  rw [dictOf_nodupKeys _ hkeys]
  unfold dinsert
  have hany : ¬ ((A.arcsOf q).map
      (fun t => (PKey.arc t.1 t.2.1, φ t.2.2 / Zout φ A q))).any
        (fun p => p.1 = PKey.stop) = true := by
    intro hc
    rcases List.any_eq_true.mp hc with ⟨p, hp, hps⟩
    rcases List.mem_map.mp hp with ⟨u, _, hu⟩
    rw [← hu] at hps
    simp at hps
  rw [if_neg hany]

/-- Lookup of an arc entry in the options dict. -/
theorem ancestralDist_arc [Field α] [DecidableEq α] (φ : α → α) (A : FSA Sym α)
    (q : StateId) (a : Sym) (q' : StateId) (w : α)
    (hnd : ((A.arcsOf q).map (fun t => PKey.arc t.1 t.2.1)).Nodup)
    (hmem : (a, q', w) ∈ A.arcsOf q) :
    dget (ancestralDist φ A q) (PKey.arc a q') = some (φ w / Zout φ A q) := by
  rw [ancestralDist_eq φ A q hnd, dget_append]
  have harc : dget ((A.arcsOf q).map
      (fun t => (PKey.arc t.1 t.2.1, φ t.2.2 / Zout φ A q))) (PKey.arc a q')
        = some (φ w / Zout φ A q) := by
    apply dget_of_mem_nodup
    · rw [List.map_map]; exact hnd
    · exact List.mem_map.mpr ⟨(a, q', w), hmem, rfl⟩
  rw [harc]
  rfl

/-- Lookup of the stop entry in the options dict. -/
theorem ancestralDist_stop [Field α] [DecidableEq α] (φ : α → α) (A : FSA Sym α)
    (q : StateId) (hnd : ((A.arcsOf q).map (fun t => PKey.arc t.1 t.2.1)).Nodup) :
    dget (ancestralDist φ A q) PKey.stop = some (φ (A.ρ q) / Zout φ A q) := by
  rw [ancestralDist_eq φ A q hnd, dget_append]
  have hnone : dget ((A.arcsOf q).map
      (fun t => (PKey.arc t.1 t.2.1, φ t.2.2 / Zout φ A q))) PKey.stop = none := by
    rw [dget_eq_none]
    intro hc
    unfold dkeys at hc
    rw [List.map_map] at hc
    rcases List.mem_map.mp hc with ⟨u, _, hu⟩
    cases hu
  rw [hnone]
  simp [dget_cons, dget_nil]

/-- The keys of the options dict: each outgoing arc's pair, plus stop. -/
theorem ancestralDist_keys [Field α] [DecidableEq α] (φ : α → α) (A : FSA Sym α)
    (q : StateId) (hnd : ((A.arcsOf q).map (fun t => PKey.arc t.1 t.2.1)).Nodup) (k : PKey) :
    k ∈ dkeys (ancestralDist φ A q) ↔
      k = PKey.stop ∨ ∃ a q' w, (a, q', w) ∈ A.arcsOf q ∧ k = PKey.arc a q' := by
  rw [ancestralDist_eq φ A q hnd]
  unfold dkeys
  rw [List.map_append, List.mem_append, List.map_map]
  constructor
  · intro h
    rcases h with h | h
    · rcases List.mem_map.mp h with ⟨u, hu, huk⟩
      exact Or.inr ⟨u.1, u.2.1, u.2.2, hu, huk.symm⟩
    · simp at h
      exact Or.inl h
  · intro h
    rcases h with h | ⟨a, q', w, hu, hk⟩
    · right; simp [h]
    · left
      exact List.mem_map.mpr ⟨(a, q', w), hu, by rw [hk]; rfl⟩

/-- The `EOS` entry of the marginal dict `pa`. -/
theorem dget_mkPa_EOS [LinearOrderedField α] (φ : α → α) (A : FSA Sym α) (q : StateId) :
    dget (mkPa φ A q) EOS = some (φ (A.ρ q) / Zout φ A q) :=
  dget_dinsert_self _ _ _

/-- The alphabet entries of the marginal dict `pa`. -/
theorem dget_mkPa_sym [LinearOrderedField α] (φ : α → α) (A : FSA Sym α) (q : StateId)
    (hsig : A.Sigma.Nodup) (b : Sym) (hbE : b ≠ EOS) :
    dget (mkPa φ A q) b =
      if b ∈ A.Sigma then some (Zqa φ A q b / Zout φ A q) else none := by
  unfold mkPa
  rw [dget_dinsert_of_ne _ _ _ _ hbE]
  have hkeys : ((A.Sigma.map
      (fun c => (c, Zqa φ A q c / Zout φ A q))).map Prod.fst).Nodup := by
    rw [List.map_map]
    have hco : (Prod.fst ∘ fun c : Sym => (c, Zqa φ A q c / Zout φ A q)) = id := rfl
    rw [hco, List.map_id]
    exact hsig
  rw [dictOf_nodupKeys _ hkeys, dget_map_keyfun]

/-- The belief dict `pq_a` has an entry exactly for the alphabet symbols of
strictly positive scaled arc mass. -/
theorem dget_mkBeliefs [LinearOrderedField α] (φ : α → α) (A : FSA Sym α) (q : StateId)
    (hsig : A.Sigma.Nodup) (b : Sym) :
    dget (mkBeliefs φ A q) b =
      if b ∈ A.Sigma ∧ 0 < Zqa φ A q b then
        some (dictOf (A.Q.map (fun q' => (q', ZqaTo φ A q b q' / Zqa φ A q b))))
      else none := by
  unfold mkBeliefs
  have hkeys : (((A.Sigma.filter (fun c => 0 < Zqa φ A q c)).map
      (fun c => (c, dictOf (A.Q.map
        (fun q' => (q', ZqaTo φ A q c q' / Zqa φ A q c)))))).map Prod.fst).Nodup := by
    rw [List.map_map]
    have hco : (Prod.fst ∘ fun c : Sym => (c, dictOf (A.Q.map
        (fun q' => (q', ZqaTo φ A q c q' / Zqa φ A q c))))) = id := rfl
    rw [hco, List.map_id]
    exact hsig.filter _
  rw [dictOf_nodupKeys _ hkeys, dget_map_keyfun]
  by_cases hb : b ∈ A.Sigma.filter (fun c => 0 < Zqa φ A q c)
  · have := List.mem_filter.mp hb
    rw [if_pos hb, if_pos ⟨this.1, by simpa using this.2⟩]
  · rw [if_neg hb, if_neg]
    intro hc
    exact hb (List.mem_filter.mpr ⟨hc.1, by simpa using hc.2⟩)

end Sampler

/-! ### Reachability lemmas for the pruner -/

namespace Transformer

variable {σ α : Type} [DecidableEq σ] [DecidableEq α]

theorem mem_succs (arcs : List (StateId × σ × StateId × α)) (q r : StateId) :
    r ∈ succs arcs q ↔ ∃ a w, (q, a, r, w) ∈ arcs := by
  unfold succs
  constructor
  · intro h
    rcases List.mem_map.mp h with ⟨t, ht, hr⟩
    have hm := List.mem_filter.mp ht
    have hq : t.1 = q := by simpa using hm.2
    refine ⟨t.2.1, t.2.2.2, ?_⟩
    have : t = (q, t.2.1, r, t.2.2.2) := by
      rw [← hq, ← hr]
    rw [← this]
    exact hm.1
  · rintro ⟨a, w, hm⟩
    exact List.mem_map.mpr ⟨(q, a, r, w), List.mem_filter.mpr ⟨hm, by simp⟩, rfl⟩

theorem subset_stepSet (arcs : List (StateId × σ × StateId × α)) (S : List StateId)
    (q : StateId) (h : q ∈ S) : q ∈ stepSet arcs S := by
  unfold stepSet
  rw [List.mem_dedup, List.mem_append]
  exact Or.inl h

theorem mem_stepSet (arcs : List (StateId × σ × StateId × α)) (S : List StateId)
    (q : StateId) : q ∈ stepSet arcs S ↔ q ∈ S ∨ ∃ p ∈ S, q ∈ succs arcs p := by
  unfold stepSet
  rw [List.mem_dedup, List.mem_append, List.mem_flatMap]

theorem subset_iterFix (arcs : List (StateId × σ × StateId × α)) :
    ∀ (n : Nat) (S : List StateId) (q : StateId), q ∈ S → q ∈ iterFix arcs n S := by
  intro n
  induction n with
  | zero => intro S q h; exact h
  | succ n ih =>
    intro S q h
    unfold iterFix
    by_cases hc : (stepSet arcs S).all (fun r => r ∈ S) = true
    · rw [if_pos hc]; exact h
    · rw [if_neg hc]
      exact ih (stepSet arcs S) q (subset_stepSet arcs S q h)

theorem iterFix_inversion (arcs : List (StateId × σ × StateId × α)) :
    ∀ (n : Nat) (S : List StateId) (q : StateId), q ∈ iterFix arcs n S →
      q ∈ S ∨ ∃ p a w, (p, a, q, w) ∈ arcs ∧ p ∈ iterFix arcs n S := by
  intro n
  induction n with
  | zero => intro S q h; exact Or.inl h
  | succ n ih =>
    intro S q h
    unfold iterFix at h ⊢
    by_cases hc : (stepSet arcs S).all (fun r => r ∈ S) = true
    · rw [if_pos hc] at h ⊢
      exact Or.inl h
    · rw [if_neg hc] at h ⊢
      rcases ih (stepSet arcs S) q h with hq | ⟨p, a, w, hm, hp⟩
      · rcases (mem_stepSet arcs S q).mp hq with hq | ⟨p, hp, hsucc⟩
        · exact Or.inl hq
        · rcases (mem_succs arcs p q).mp hsucc with ⟨a, w, hm⟩
          exact Or.inr ⟨p, a, w, hm,
            subset_iterFix arcs n (stepSet arcs S) p (subset_stepSet arcs S p hp)⟩
      · exact Or.inr ⟨p, a, w, hm, hp⟩

theorem stepSet_toFinset_subset (arcs : List (StateId × σ × StateId × α))
    (S : List StateId) (W : Finset StateId) (hS : ∀ q ∈ S, q ∈ W)
    (hD : ∀ t ∈ arcs, t.2.2.1 ∈ W) : ∀ q ∈ stepSet arcs S, q ∈ W := by
  intro q hq
  rcases (mem_stepSet arcs S q).mp hq with hq | ⟨p, _, hsucc⟩
  · exact hS q hq
  · rcases (mem_succs arcs p q).mp hsucc with ⟨a, w, hm⟩
    exact hD (p, a, q, w) hm

/-- With enough fuel the fixed-point iteration saturates: its result is
closed under one more closure round. -/
theorem iterFix_closed (arcs : List (StateId × σ × StateId × α)) :
    ∀ (n : Nat) (S : List StateId) (W : Finset StateId), (∀ q ∈ S, q ∈ W) →
      (∀ t ∈ arcs, t.2.2.1 ∈ W) → W.card ≤ n + S.toFinset.card →
      ∀ q ∈ stepSet arcs (iterFix arcs n S), q ∈ iterFix arcs n S := by
  intro n
  induction n with
  | zero =>
    intro S W hS hD hcard q hq
    have hsub : S.toFinset ⊆ W := by
      intro x hx
      exact hS x (List.mem_toFinset.mp hx)
    have heq : S.toFinset = W := Finset.eq_of_subset_of_card_le hsub (by simpa using hcard)
    unfold iterFix at hq ⊢
    have : q ∈ W := stepSet_toFinset_subset arcs S W hS hD q hq
    rw [← heq] at this
    exact List.mem_toFinset.mp this
  | succ n ih =>
    intro S W hS hD hcard q hq
    unfold iterFix at hq ⊢
    by_cases hc : (stepSet arcs S).all (fun r => r ∈ S) = true
    · rw [if_pos hc] at hq ⊢
      exact (by simpa using (List.all_eq_true.mp hc q hq) : q ∈ S)
    · rw [if_neg hc] at hq ⊢
      have hS' : ∀ r ∈ stepSet arcs S, r ∈ W := stepSet_toFinset_subset arcs S W hS hD
      have hgrow : S.toFinset.card < (stepSet arcs S).toFinset.card := by
        apply Finset.card_lt_card
        constructor
        · intro x hx
          exact List.mem_toFinset.mpr
            (subset_stepSet arcs S x (List.mem_toFinset.mp hx))
        · intro hcon
          apply hc
          rw [List.all_eq_true]
          intro r hr
          have : r ∈ S.toFinset := hcon (List.mem_toFinset.mpr hr)
          simpa using List.mem_toFinset.mp this
      exact ih (stepSet arcs S) W hS' hD (by omega) q hq

/-- Inductive reachability from a seed set. -/
inductive Reach (arcs : List (StateId × σ × StateId × α)) (S : List StateId) :
    StateId → Prop
  | base {q : StateId} (hq : q ∈ S) : Reach arcs S q
  | step {p q : StateId} {a : σ} {w : α} (hr : Reach arcs S p)
      (ha : (p, a, q, w) ∈ arcs) : Reach arcs S q

/-- The computed closure is closed under successors. -/
theorem reachSet_closed (arcs : List (StateId × σ × StateId × α)) (S₀ : List StateId) :
    ∀ q ∈ stepSet arcs (reachSet arcs S₀), q ∈ reachSet arcs S₀ := by
  unfold reachSet
  apply iterFix_closed arcs (closureFuel arcs S₀)
    (S₀.dedup) ((S₀ ++ arcs.map (fun t => t.2.2.1)).toFinset)
  · intro q hq
    rw [List.mem_toFinset, List.mem_append]
    exact Or.inl (List.mem_dedup.mp hq)
  · intro t ht
    rw [List.mem_toFinset, List.mem_append]
    exact Or.inr (List.mem_map_of_mem _ ht)
  · unfold closureFuel
    rw [← List.card_toFinset]
    omega

/-- Completeness: inductively reachable states are in the computed
closure. -/
theorem mem_reachSet_of_reach (arcs : List (StateId × σ × StateId × α))
    (S₀ : List StateId) (q : StateId) (h : Reach arcs S₀ q) : q ∈ reachSet arcs S₀ := by
  induction h with
  | base hq =>
    exact subset_iterFix arcs _ _ _ (List.mem_dedup.mpr hq)
  | step hr ha ih =>
    apply reachSet_closed arcs S₀
    rw [mem_stepSet]
    exact Or.inr ⟨_, ih, (mem_succs arcs _ _).mpr ⟨_, _, ha⟩⟩

/-- Soundness: the computed closure only contains inductively reachable
states. -/
theorem reach_of_mem_reachSet (arcs : List (StateId × σ × StateId × α))
    (S₀ : List StateId) (q : StateId) (h : q ∈ reachSet arcs S₀) : Reach arcs S₀ q := by
  have main : ∀ (n : Nat) (S : List StateId), (∀ r ∈ S, Reach arcs S₀ r) →
      ∀ r ∈ iterFix arcs n S, Reach arcs S₀ r := by
    intro n
    induction n with
    | zero => intro S hS r hr; exact hS r hr
    | succ n ih =>
      intro S hS r hr
      unfold iterFix at hr
      by_cases hc : (stepSet arcs S).all (fun x => x ∈ S) = true
      · rw [if_pos hc] at hr; exact hS r hr
      · rw [if_neg hc] at hr
        apply ih (stepSet arcs S) _ r hr
        intro x hx
        rcases (mem_stepSet arcs S x).mp hx with hx | ⟨p, hp, hsucc⟩
        · exact hS x hx
        · rcases (mem_succs arcs p x).mp hsucc with ⟨a, w, hm⟩
          exact Reach.step (hS p hp) hm
  exact main (closureFuel arcs S₀) S₀.dedup
    (fun r hr => Reach.base (List.mem_dedup.mp hr)) q h

/-- Membership in the closure is inductive reachability. -/
theorem mem_reachSet (arcs : List (StateId × σ × StateId × α)) (S₀ : List StateId)
    (q : StateId) : q ∈ reachSet arcs S₀ ↔ Reach arcs S₀ q :=
  ⟨reach_of_mem_reachSet arcs S₀ q, mem_reachSet_of_reach arcs S₀ q⟩

theorem mem_revArcs (F : FSA σ α) (p q : StateId) (a : σ) (w : α) :
    (p, a, q, w) ∈ revArcs F ↔ (q, a, p, w) ∈ F.arcs := by
  unfold revArcs
  constructor
  · intro h
    rcases List.mem_map.mp h with ⟨u, hu, he⟩
    have h1 : u.2.2.1 = p := congrArg Prod.fst he
    have h2 : u.2.1 = a := congrArg (fun r => r.2.1) he
    have h3 : u.1 = q := congrArg (fun r => r.2.2.1) he
    have h4 : u.2.2.2 = w := congrArg (fun r => r.2.2.2) he
    have : u = (q, a, p, w) := by
      rw [← h1, ← h2, ← h3, ← h4]
    rw [← this]
    exact hu
  · intro h
    exact List.mem_map.mpr ⟨(q, a, p, w), h, rfl⟩

end Transformer

/-! ### Characterization of the components of `trim` -/

namespace Transformer

theorem mem_arcsOf (F : FSA σ α) (i : StateId) (t : σ × StateId × α) :
    t ∈ F.arcsOf i ↔ (i, t) ∈ F.arcs := by
  unfold FSA.arcsOf
  constructor
  · intro h
    rcases List.mem_map.mp h with ⟨u, hu, he⟩
    have hm := List.mem_filter.mp hu
    have h1 : u.1 = i := by simpa using hm.2
    have : u = (i, t) := by rw [← h1, ← he]
    rw [← this]
    exact hm.1
  · intro h
    exact List.mem_map.mpr ⟨(i, t), List.mem_filter.mpr ⟨h, by simp⟩, rfl⟩

theorem mem_qInsert (Q : List StateId) (q r : StateId) :
    q ∈ qInsert Q r ↔ q ∈ Q ∨ q = r := by
  unfold qInsert
  by_cases h : r ∈ Q
  · rw [if_pos h]
    constructor
    · exact Or.inl
    · rintro (hq | hq)
      · exact hq
      · exact hq ▸ h
  · rw [if_neg h]
    simp

/-- The inner fold of `_add_trim_arcs`: effect on the arc list. -/
theorem innerFold_arcs (AC : List StateId) (i : StateId) :
    ∀ (l : List (σ × StateId × α)) (T : FSA σ α),
      ((l.foldl (fun T t => if t.2.1 ∈ AC then add_arc T i t.1 t.2.1 t.2.2 else T) T)).arcs
        = T.arcs ++ ((l.filter (fun t => t.2.1 ∈ AC)).map (fun t => (i, t))) := by
  intro l
  induction l with
  | nil => intro T; simp
  | cons t l ih =>
    intro T
    rw [List.foldl_cons]
    by_cases h : t.2.1 ∈ AC
    · rw [if_pos h, ih, List.filter_cons_of_pos (by simpa using h)]
      simp [add_arc]
    · rw [if_neg h, ih, List.filter_cons_of_neg (by simpa using h)]

/-- The inner fold of `_add_trim_arcs` leaves `I`, `finals` and the other
metadata unchanged. -/
theorem innerFold_rest (AC : List StateId) (i : StateId) :
    ∀ (l : List (σ × StateId × α)) (T : FSA σ α),
      ((l.foldl (fun T t => if t.2.1 ∈ AC then add_arc T i t.1 t.2.1 t.2.2 else T) T)).I = T.I
      ∧ ((l.foldl (fun T t => if t.2.1 ∈ AC then add_arc T i t.1 t.2.1 t.2.2 else T) T)).finals
          = T.finals := by
  intro l
  induction l with
  | nil => intro T; exact ⟨rfl, rfl⟩
  | cons t l ih =>
    intro T
    rw [List.foldl_cons]
    by_cases h : t.2.1 ∈ AC
    · rw [if_pos h]
      exact ih (add_arc T i t.1 t.2.1 t.2.2)
    · rw [if_neg h]
      exact ih T

/-- The inner fold of `_add_trim_arcs`: effect on the state set. -/
theorem innerFold_Q (AC : List StateId) (i : StateId) :
    ∀ (l : List (σ × StateId × α)) (T : FSA σ α) (q : StateId),
      (q ∈ ((l.foldl (fun T t => if t.2.1 ∈ AC then add_arc T i t.1 t.2.1 t.2.2 else T) T)).Q
        ↔ q ∈ T.Q ∨ ∃ t ∈ l, t.2.1 ∈ AC ∧ (q = i ∨ q = t.2.1)) := by
  intro l
  induction l with
  | nil => intro T q; simp
  | cons t l ih =>
    intro T q
    rw [List.foldl_cons]
    by_cases h : t.2.1 ∈ AC
    · rw [if_pos h, ih]
      have hQ : q ∈ (add_arc T i t.1 t.2.1 t.2.2).Q ↔ q ∈ T.Q ∨ q = i ∨ q = t.2.1 := by
        unfold add_arc
        rw [show (FSA.mk (qInsert (qInsert T.Q i) t.2.1) T.Sigma
            (T.arcs ++ [(i, t.1, t.2.1, t.2.2)]) T.I T.finals T.probabilistic T.Rtag).Q
          = qInsert (qInsert T.Q i) t.2.1 from rfl]
        rw [mem_qInsert, mem_qInsert]
        tauto
      rw [hQ]
      constructor
      · rintro ((hq | hq) | ⟨u, hu, hAC, hor⟩)
        · exact Or.inl hq
        · exact Or.inr ⟨t, List.mem_cons_self t l, h, hq⟩
        · exact Or.inr ⟨u, List.mem_cons_of_mem t hu, hAC, hor⟩
      · rintro (hq | ⟨u, hu, hAC, hor⟩)
        · exact Or.inl (Or.inl hq)
        · rcases List.mem_cons.mp hu with hu | hu
          · subst hu
            exact Or.inl (Or.inr hor)
          · exact Or.inr ⟨u, hu, hAC, hor⟩
    · rw [if_neg h, ih]
      constructor
      · rintro (hq | ⟨u, hu, hAC, hor⟩)
        · exact Or.inl hq
        · exact Or.inr ⟨u, List.mem_cons_of_mem t hu, hAC, hor⟩
      · rintro (hq | ⟨u, hu, hAC, hor⟩)
        · exact Or.inl hq
        · rcases List.mem_cons.mp hu with hu | hu
          · exact absurd (hu ▸ hAC) h
          · exact Or.inr ⟨u, hu, hAC, hor⟩

/-- The outer fold of `_add_trim_arcs`: effect on the arc list. -/
theorem outerFold_arcs (F : FSA σ α) (AC : List StateId) :
    ∀ (L : List StateId) (T : FSA σ α),
      (L.foldl (fun T i => (F.arcsOf i).foldl
          (fun T t => if t.2.1 ∈ AC then add_arc T i t.1 t.2.1 t.2.2 else T) T) T).arcs
        = T.arcs ++ L.flatMap
            (fun i => ((F.arcsOf i).filter (fun t => t.2.1 ∈ AC)).map (fun t => (i, t))) := by
  intro L
  induction L with
  | nil => intro T; simp
  | cons i L ih =>
    intro T
    rw [List.foldl_cons, ih, innerFold_arcs, List.flatMap_cons, List.append_assoc]

/-- The outer fold of `_add_trim_arcs` leaves `I` and `finals` unchanged. -/
theorem outerFold_rest (F : FSA σ α) (AC : List StateId) :
    ∀ (L : List StateId) (T : FSA σ α),
      ((L.foldl (fun T i => (F.arcsOf i).foldl
          (fun T t => if t.2.1 ∈ AC then add_arc T i t.1 t.2.1 t.2.2 else T) T) T)).I = T.I
      ∧ ((L.foldl (fun T i => (F.arcsOf i).foldl
          (fun T t => if t.2.1 ∈ AC then add_arc T i t.1 t.2.1 t.2.2 else T) T) T)).finals
            = T.finals := by
  intro L
  induction L with
  | nil => intro T; exact ⟨rfl, rfl⟩
  | cons i L ih =>
    intro T
    rw [List.foldl_cons]
    rcases ih ((F.arcsOf i).foldl
        (fun T t => if t.2.1 ∈ AC then add_arc T i t.1 t.2.1 t.2.2 else T) T) with ⟨h1, h2⟩
    rcases innerFold_rest AC i (F.arcsOf i) T with ⟨h3, h4⟩
    exact ⟨h1.trans h3, h2.trans h4⟩

/-- The outer fold of `_add_trim_arcs`: effect on the state set. -/
theorem outerFold_Q (F : FSA σ α) (AC : List StateId) :
    ∀ (L : List StateId) (T : FSA σ α) (q : StateId),
      (q ∈ (L.foldl (fun T i => (F.arcsOf i).foldl
          (fun T t => if t.2.1 ∈ AC then add_arc T i t.1 t.2.1 t.2.2 else T) T) T).Q
        ↔ q ∈ T.Q ∨ ∃ i ∈ L, ∃ t ∈ F.arcsOf i, t.2.1 ∈ AC ∧ (q = i ∨ q = t.2.1)) := by
  intro L
  induction L with
  | nil => intro T q; simp
  | cons i L ih =>
    intro T q
    rw [List.foldl_cons, ih, innerFold_Q]
    constructor
    · rintro ((hq | ⟨t, ht, hAC, hor⟩) | ⟨j, hj, t, ht, hAC, hor⟩)
      · exact Or.inl hq
      · exact Or.inr ⟨i, List.mem_cons_self i L, t, ht, hAC, hor⟩
      · exact Or.inr ⟨j, List.mem_cons_of_mem i hj, t, ht, hAC, hor⟩
    · rintro (hq | ⟨j, hj, t, ht, hAC, hor⟩)
      · exact Or.inl (Or.inl hq)
      · rcases List.mem_cons.mp hj with hj | hj
        · subst hj
          exact Or.inl (Or.inr ⟨t, ht, hAC, hor⟩)
        · exact Or.inr ⟨j, hj, t, ht, hAC, hor⟩

/-- The `set_I` fold of `trim`: effect on the initial weights. -/
theorem setIFold_I (AC : List StateId) :
    ∀ (l : List (StateId × α)) (T : FSA σ α),
      (l.foldl (fun T p => if p.1 ∈ AC then set_I T p.1 p.2 else T) T).I
        = T.I ++ l.filter (fun p => p.1 ∈ AC) := by
  intro l
  induction l with
  | nil => intro T; simp
  | cons p l ih =>
    intro T
    rw [List.foldl_cons]
    by_cases h : p.1 ∈ AC
    · rw [if_pos h, ih, List.filter_cons_of_pos (by simpa using h)]
      simp [set_I]
    · rw [if_neg h, ih, List.filter_cons_of_neg (by simpa using h)]

/-- The `set_I` fold leaves arcs and final weights unchanged. -/
theorem setIFold_rest (AC : List StateId) :
    ∀ (l : List (StateId × α)) (T : FSA σ α),
      ((l.foldl (fun T p => if p.1 ∈ AC then set_I T p.1 p.2 else T) T).arcs = T.arcs)
      ∧ ((l.foldl (fun T p => if p.1 ∈ AC then set_I T p.1 p.2 else T) T).finals
          = T.finals) := by
  intro l
  induction l with
  | nil => intro T; exact ⟨rfl, rfl⟩
  | cons p l ih =>
    intro T
    rw [List.foldl_cons]
    by_cases h : p.1 ∈ AC
    · rw [if_pos h]; exact ih (set_I T p.1 p.2)
    · rw [if_neg h]; exact ih T

/-- The `set_I` fold: effect on the state set. -/
theorem setIFold_Q (AC : List StateId) :
    ∀ (l : List (StateId × α)) (T : FSA σ α) (q : StateId),
      (q ∈ (l.foldl (fun T p => if p.1 ∈ AC then set_I T p.1 p.2 else T) T).Q
        ↔ q ∈ T.Q ∨ ∃ p ∈ l, p.1 ∈ AC ∧ q = p.1) := by
  intro l
  induction l with
  | nil => intro T q; simp
  | cons p l ih =>
    intro T q
    rw [List.foldl_cons]
    by_cases h : p.1 ∈ AC
    · rw [if_pos h, ih]
      have hQ : q ∈ (set_I T p.1 p.2).Q ↔ q ∈ T.Q ∨ q = p.1 := by
        unfold set_I
        exact mem_qInsert T.Q q p.1
      rw [hQ]
      constructor
      · rintro ((hq | hq) | ⟨r, hr, hAC, he⟩)
        · exact Or.inl hq
        · exact Or.inr ⟨p, List.mem_cons_self p l, h, hq⟩
        · exact Or.inr ⟨r, List.mem_cons_of_mem p hr, hAC, he⟩
      · rintro (hq | ⟨r, hr, hAC, he⟩)
        · exact Or.inl (Or.inl hq)
        · rcases List.mem_cons.mp hr with hr | hr
          · subst hr
            exact Or.inl (Or.inr he)
          · exact Or.inr ⟨r, hr, hAC, he⟩
    · rw [if_neg h, ih]
      constructor
      · rintro (hq | ⟨r, hr, hAC, he⟩)
        · exact Or.inl hq
        · exact Or.inr ⟨r, List.mem_cons_of_mem p hr, hAC, he⟩
      · rintro (hq | ⟨r, hr, hAC, he⟩)
        · exact Or.inl hq
        · rcases List.mem_cons.mp hr with hr | hr
          · exact absurd (hr ▸ hAC) h
          · exact Or.inr ⟨r, hr, hAC, he⟩

/-- The `set_F` fold of `trim`: effect on the final weights. -/
theorem setFFold_F (AC : List StateId) :
    ∀ (l : List (StateId × α)) (T : FSA σ α),
      (l.foldl (fun T p => if p.1 ∈ AC then set_F T p.1 p.2 else T) T).finals
        = T.finals ++ l.filter (fun p => p.1 ∈ AC) := by
  intro l
  induction l with
  | nil => intro T; simp
  | cons p l ih =>
    intro T
    rw [List.foldl_cons]
    by_cases h : p.1 ∈ AC
    · rw [if_pos h, ih, List.filter_cons_of_pos (by simpa using h)]
      simp [set_F]
    · rw [if_neg h, ih, List.filter_cons_of_neg (by simpa using h)]

/-- The `set_F` fold leaves arcs and initial weights unchanged. -/
theorem setFFold_rest (AC : List StateId) :
    ∀ (l : List (StateId × α)) (T : FSA σ α),
      ((l.foldl (fun T p => if p.1 ∈ AC then set_F T p.1 p.2 else T) T).arcs = T.arcs)
      ∧ ((l.foldl (fun T p => if p.1 ∈ AC then set_F T p.1 p.2 else T) T).I = T.I) := by
  intro l
  induction l with
  | nil => intro T; exact ⟨rfl, rfl⟩
  | cons p l ih =>
    intro T
    rw [List.foldl_cons]
    by_cases h : p.1 ∈ AC
    · rw [if_pos h]; exact ih (set_F T p.1 p.2)
    · rw [if_neg h]; exact ih T

/-- The `set_F` fold: effect on the state set. -/
theorem setFFold_Q (AC : List StateId) :
    ∀ (l : List (StateId × α)) (T : FSA σ α) (q : StateId),
      (q ∈ (l.foldl (fun T p => if p.1 ∈ AC then set_F T p.1 p.2 else T) T).Q
        ↔ q ∈ T.Q ∨ ∃ p ∈ l, p.1 ∈ AC ∧ q = p.1) := by
  intro l
  induction l with
  | nil => intro T q; simp
  | cons p l ih =>
    intro T q
    rw [List.foldl_cons]
    by_cases h : p.1 ∈ AC
    · rw [if_pos h, ih]
      have hQ : q ∈ (set_F T p.1 p.2).Q ↔ q ∈ T.Q ∨ q = p.1 := by
        unfold set_F
        exact mem_qInsert T.Q q p.1
      rw [hQ]
      constructor
      · rintro ((hq | hq) | ⟨r, hr, hAC, he⟩)
        · exact Or.inl hq
        · exact Or.inr ⟨p, List.mem_cons_self p l, h, hq⟩
        · exact Or.inr ⟨r, List.mem_cons_of_mem p hr, hAC, he⟩
      · rintro (hq | ⟨r, hr, hAC, he⟩)
        · exact Or.inl (Or.inl hq)
        · rcases List.mem_cons.mp hr with hr | hr
          · subst hr
            exact Or.inl (Or.inr he)
          · exact Or.inr ⟨r, hr, hAC, he⟩
    · rw [if_neg h, ih]
      constructor
      · rintro (hq | ⟨r, hr, hAC, he⟩)
        · exact Or.inl hq
        · exact Or.inr ⟨r, List.mem_cons_of_mem p hr, hAC, he⟩
      · rintro (hq | ⟨r, hr, hAC, he⟩)
        · exact Or.inl hq
        · rcases List.mem_cons.mp hr with hr | hr
          · exact absurd (hr ▸ hAC) h
          · exact Or.inr ⟨r, hr, hAC, he⟩

end Transformer

/-! ### The components of `trim` -/

namespace Transformer

variable {σ α : Type} [DecidableEq σ] [DecidableEq α] [Zero α] [LT α]
variable [∀ a b : α, Decidable (a < b)]

theorem mem_trimAC (F : FSA σ α) (q : StateId) :
    q ∈ trimAC F ↔ q ∈ accessible F ∧ q ∈ coaccessible F := by
  unfold trimAC
  rw [List.mem_filter]
  simp

theorem trim_eq (F : FSA σ α) :
    trim F = F.finals.foldl (fun T p => if p.1 ∈ trimAC F then set_F T p.1 p.2 else T)
      (F.I.foldl (fun T p => if p.1 ∈ trimAC F then set_I T p.1 p.2 else T)
        (addTrimArcs F (spawn F) (trimAC F))) := rfl

theorem trim_arcs_eq (F : FSA σ α) :
    (trim F).arcs = (trimAC F).flatMap
      (fun i => ((F.arcsOf i).filter (fun t => t.2.1 ∈ trimAC F)).map (fun t => (i, t))) := by
  rw [trim_eq, (setFFold_rest (trimAC F) F.finals _).1, (setIFold_rest (trimAC F) F.I _).1]
  unfold addTrimArcs
  rw [outerFold_arcs]
  rfl

theorem trim_I_eq (F : FSA σ α) :
    (trim F).I = F.I.filter (fun p => p.1 ∈ trimAC F) := by
  rw [trim_eq, (setFFold_rest (trimAC F) F.finals _).2, setIFold_I]
  unfold addTrimArcs
  rw [(outerFold_rest F (trimAC F) (trimAC F) (spawn F)).1]
  rfl

theorem trim_finals_eq (F : FSA σ α) :
    (trim F).finals = F.finals.filter (fun p => p.1 ∈ trimAC F) := by
  rw [trim_eq, setFFold_F, (setIFold_rest (trimAC F) F.I _).2]
  unfold addTrimArcs
  rw [(outerFold_rest F (trimAC F) (trimAC F) (spawn F)).2]
  rfl

theorem trim_Q_mem (F : FSA σ α) (q : StateId) :
    q ∈ (trim F).Q ↔
      (∃ i ∈ trimAC F, ∃ t ∈ F.arcsOf i, t.2.1 ∈ trimAC F ∧ (q = i ∨ q = t.2.1))
      ∨ (∃ p ∈ F.I, p.1 ∈ trimAC F ∧ q = p.1)
      ∨ (∃ p ∈ F.finals, p.1 ∈ trimAC F ∧ q = p.1) := by
  rw [trim_eq, setFFold_Q, setIFold_Q]
  unfold addTrimArcs
  rw [outerFold_Q]
  have hspawn : q ∈ (spawn F).Q ↔ False := by
    unfold spawn
    simp
  rw [hspawn, false_or, or_assoc]

/-- An arc survives `trim` exactly when both its endpoints are retained. -/
theorem trim_arcs_mem (F : FSA σ α) (t : StateId × σ × StateId × α) :
    t ∈ (trim F).arcs ↔ t ∈ F.arcs ∧ t.1 ∈ trimAC F ∧ t.2.2.1 ∈ trimAC F := by
  rw [trim_arcs_eq, List.mem_flatMap]
  constructor
  · rintro ⟨i, hi, hmem⟩
    rcases List.mem_map.mp hmem with ⟨u, hu, he⟩
    have hf := List.mem_filter.mp hu
    have harc : (i, u) ∈ F.arcs := (mem_arcsOf F i u).mp hf.1
    have hdst : u.2.1 ∈ trimAC F := by simpa using hf.2
    rw [← he]
    exact ⟨harc, hi, hdst⟩
  · rintro ⟨harc, hsrc, hdst⟩
    refine ⟨t.1, hsrc, List.mem_map.mpr ⟨t.2, List.mem_filter.mpr ⟨?_, by simpa using hdst⟩, rfl⟩⟩
    exact (mem_arcsOf F t.1 t.2).mpr (by simpa using harc)

/-- The accessible set is closed under arc successors. -/
theorem accessible_succ_closed (F : FSA σ α) (p q : StateId) (a : σ) (w : α)
    (hp : p ∈ accessible F) (hm : (p, a, q, w) ∈ F.arcs) : q ∈ accessible F := by
  unfold accessible at hp ⊢
  apply reachSet_closed
  rw [mem_stepSet]
  exact Or.inr ⟨p, hp, (mem_succs F.arcs p q).mpr ⟨a, w, hm⟩⟩

/-- The co-accessible set is closed under arc predecessors. -/
theorem coaccessible_pred_closed (F : FSA σ α) (p q : StateId) (a : σ) (w : α)
    (hm : (p, a, q, w) ∈ F.arcs) (hq : q ∈ coaccessible F) : p ∈ coaccessible F := by
  unfold coaccessible at hq ⊢
  apply reachSet_closed
  rw [mem_stepSet]
  exact Or.inr ⟨q, hq, (mem_succs (revArcs F) q p).mpr ⟨a, w, (mem_revArcs F q p a w).mpr hm⟩⟩

/-- The states of `trim F` are exactly the accessible-and-co-accessible
states of `F`. -/
theorem trim_Q_iff (F : FSA σ α) (q : StateId) :
    q ∈ (trim F).Q ↔ q ∈ accessible F ∧ q ∈ coaccessible F := by
  rw [trim_Q_mem]
  constructor
  · rintro (⟨i, hi, t, ht, hdst, hq⟩ | ⟨p, hp, hAC, hq⟩ | ⟨p, hp, hAC, hq⟩)
    · rcases hq with hq | hq
      · exact (mem_trimAC F q).mp (hq ▸ hi)
      · exact (mem_trimAC F q).mp (hq ▸ hdst)
    · exact (mem_trimAC F q).mp (hq ▸ hAC)
    · exact (mem_trimAC F q).mp (hq ▸ hAC)
  · rintro ⟨hacc, hco⟩
    have hAC : q ∈ trimAC F := (mem_trimAC F q).mpr ⟨hacc, hco⟩
    unfold accessible at hacc
    cases reach_of_mem_reachSet F.arcs (F.I.map (fun p => p.1)) q hacc with
    | base hq =>
      rcases List.mem_map.mp hq with ⟨p, hp, he⟩
      exact Or.inr (Or.inl ⟨p, hp, he ▸ hAC, he.symm⟩)
    | step hr ha =>
      rename_i p a w
      have hp_acc : p ∈ accessible F := by
        unfold accessible
        exact mem_reachSet_of_reach F.arcs (F.I.map (fun r => r.1)) p hr
      have hp_co : p ∈ coaccessible F := coaccessible_pred_closed F p q a w ha hco
      have hpAC : p ∈ trimAC F := (mem_trimAC F p).mpr ⟨hp_acc, hp_co⟩
      exact Or.inl ⟨p, hpAC, (a, q, w), (mem_arcsOf F p (a, q, w)).mpr ha, hAC, Or.inr rfl⟩

/-- Initial states retained by `trim` are states of the trimmed automaton. -/
theorem trim_I_states (F : FSA σ α) (p : StateId × α) (hp : p ∈ (trim F).I) :
    p.1 ∈ (trim F).Q := by
  rw [trim_I_eq] at hp
  have h := List.mem_filter.mp hp
  rw [trim_Q_mem]
  exact Or.inr (Or.inl ⟨p, h.1, by simpa using h.2, rfl⟩)

/-- Final states retained by `trim` are states of the trimmed automaton. -/
theorem trim_finals_states (F : FSA σ α) (p : StateId × α) (hp : p ∈ (trim F).finals) :
    p.1 ∈ (trim F).Q := by
  rw [trim_finals_eq] at hp
  have h := List.mem_filter.mp hp
  rw [trim_Q_mem]
  exact Or.inr (Or.inr ⟨p, h.1, by simpa using h.2, rfl⟩)

/-- The endpoints of every retained arc are states of the trimmed
automaton. -/
theorem trim_arc_endpoints (F : FSA σ α) (t : StateId × σ × StateId × α)
    (ht : t ∈ (trim F).arcs) : t.1 ∈ (trim F).Q ∧ t.2.2.1 ∈ (trim F).Q := by
  rcases (trim_arcs_mem F t).mp ht with ⟨hF, hsrc, hdst⟩
  constructor
  · rw [trim_Q_mem]
    exact Or.inl ⟨t.1, hsrc, t.2, (mem_arcsOf F t.1 t.2).mpr (by simpa using hF), hdst,
      Or.inl rfl⟩
  · rw [trim_Q_mem]
    exact Or.inl ⟨t.1, hsrc, t.2, (mem_arcsOf F t.1 t.2).mpr (by simpa using hF), hdst,
      Or.inr rfl⟩

/-- Accessible states of the trimmed automaton are among its states. -/
theorem trimQ_of_acc (F : FSA σ α) (q : StateId) (h : q ∈ accessible (trim F)) :
    q ∈ (trim F).Q := by
  unfold accessible at h
  cases reach_of_mem_reachSet (trim F).arcs ((trim F).I.map (fun p => p.1)) q h with
  | base hq =>
    rcases List.mem_map.mp hq with ⟨r, hr, he⟩
    exact he ▸ trim_I_states F r hr
  | step hr ha =>
    rename_i p a w
    exact (trim_arc_endpoints F (p, a, q, w) ha).2

/-- A path witness in `F` from an initial state to a co-accessible state
transfers to the trimmed automaton. -/
theorem reach_transfer_acc (F : FSA σ α) (p : StateId)
    (h : Reach F.arcs (F.I.map (fun r => r.1)) p) :
    p ∈ coaccessible F → Reach (trim F).arcs ((trim F).I.map (fun r => r.1)) p := by
  induction h with
  | base hq =>
    rename_i q0
    intro hco
    rcases List.mem_map.mp hq with ⟨r, hr, he⟩
    have hacc : q0 ∈ accessible F := by
      unfold accessible
      exact mem_reachSet_of_reach F.arcs (F.I.map (fun s => s.1)) q0 (Reach.base hq)
    have hAC : r.1 ∈ trimAC F := by
      rw [he]
      exact (mem_trimAC F q0).mpr ⟨hacc, hco⟩
    apply Reach.base
    refine List.mem_map.mpr ⟨r, ?_, he⟩
    rw [trim_I_eq, List.mem_filter]
    exact ⟨hr, by simpa using hAC⟩
  | step hr ha ih =>
    rename_i p' q' a w
    intro hco
    have hp'co : p' ∈ coaccessible F := coaccessible_pred_closed F p' q' a w ha hco
    have hp'acc : p' ∈ accessible F := by
      unfold accessible
      exact mem_reachSet_of_reach F.arcs (F.I.map (fun s => s.1)) p' hr
    have hq'acc : q' ∈ accessible F := accessible_succ_closed F p' q' a w hp'acc ha
    have harc : (p', a, q', w) ∈ (trim F).arcs :=
      (trim_arcs_mem F (p', a, q', w)).mpr
        ⟨ha, (mem_trimAC F p').mpr ⟨hp'acc, hp'co⟩, (mem_trimAC F q').mpr ⟨hq'acc, hco⟩⟩
    exact Reach.step (ih hp'co) harc

/-- A reversed path witness in `F` from a positively-final state to an
accessible state transfers to the trimmed automaton. -/
theorem reach_transfer_coacc (F : FSA σ α) (p : StateId)
    (h : Reach (revArcs F) ((F.finals.filter (fun r => 0 < r.2)).map (fun r => r.1)) p) :
    p ∈ accessible F →
      Reach (revArcs (trim F))
        (((trim F).finals.filter (fun r => 0 < r.2)).map (fun r => r.1)) p := by
  induction h with
  | base hq =>
    rename_i q0
    intro hacc
    rcases List.mem_map.mp hq with ⟨r, hr, he⟩
    have hco : q0 ∈ coaccessible F := by
      unfold coaccessible
      exact mem_reachSet_of_reach (revArcs F) _ q0 (Reach.base hq)
    have hAC : r.1 ∈ trimAC F := by
      rw [he]
      exact (mem_trimAC F q0).mpr ⟨hacc, hco⟩
    apply Reach.base
    refine List.mem_map.mpr ⟨r, ?_, he⟩
    have hrf := List.mem_filter.mp hr
    rw [List.mem_filter, trim_finals_eq, List.mem_filter]
    exact ⟨⟨hrf.1, by simpa using hAC⟩, hrf.2⟩
  | step hr ha ih =>
    rename_i p' q' a w
    intro hacc
    have hreal : (q', a, p', w) ∈ F.arcs := (mem_revArcs F p' q' a w).mp ha
    have hp'acc : p' ∈ accessible F := accessible_succ_closed F q' p' a w hacc hreal
    have hp'co : p' ∈ coaccessible F := by
      unfold coaccessible
      exact mem_reachSet_of_reach (revArcs F) _ p' hr
    have hq'co : q' ∈ coaccessible F := coaccessible_pred_closed F q' p' a w hreal hp'co
    have harc : (q', a, p', w) ∈ (trim F).arcs :=
      (trim_arcs_mem F (q', a, p', w)).mpr
        ⟨hreal, (mem_trimAC F q').mpr ⟨hacc, hq'co⟩, (mem_trimAC F p').mpr ⟨hp'acc, hp'co⟩⟩
    exact Reach.step (ih hp'acc) ((mem_revArcs (trim F) p' q' a w).mpr harc)

/-- Every state of the trimmed automaton is accessible and co-accessible in
the trimmed automaton itself. -/
theorem trimQ_self_AC (F : FSA σ α) (q : StateId) (h : q ∈ (trim F).Q) :
    q ∈ accessible (trim F) ∧ q ∈ coaccessible (trim F) := by
  rcases (trim_Q_iff F q).mp h with ⟨hacc, hco⟩
  constructor
  · unfold accessible at hacc ⊢
    exact mem_reachSet_of_reach _ _ q
      (reach_transfer_acc F q (reach_of_mem_reachSet _ _ q hacc)
        (by
          unfold coaccessible at hco
          unfold coaccessible
          exact hco))
  · unfold coaccessible at hco ⊢
    exact mem_reachSet_of_reach _ _ q
      (reach_transfer_coacc F q (reach_of_mem_reachSet _ _ q hco)
        (by
          unfold accessible at hacc
          unfold accessible
          exact hacc))

end Transformer

/-! ### Claims C2 and C9 -/

/-- C2: for every input automaton — including automata with unreachable
states or states with no path to a final state — `trim` returns (without
error: it is a total function) a new automaton whose retained set
`AC = accessible ∩ coaccessible` is exactly its state set, whose arcs are
exactly the input arcs with both endpoints in `AC` (label and weight copied
verbatim as part of the arc), and whose initial and final weight lists are
exactly the input lists restricted to `AC`, with no weight altered. -/
theorem claim_C2 {σ α : Type} [DecidableEq σ] [DecidableEq α] [Zero α] [LT α]
    [∀ a b : α, Decidable (a < b)] (F : FSA σ α) :
    (∀ q, q ∈ Transformer.trimAC F ↔
        q ∈ Transformer.accessible F ∧ q ∈ Transformer.coaccessible F)
    ∧ (∀ q, q ∈ (Transformer.trim F).Q ↔
        q ∈ Transformer.accessible F ∧ q ∈ Transformer.coaccessible F)
    ∧ (∀ t, t ∈ (Transformer.trim F).arcs ↔
        t ∈ F.arcs ∧ t.1 ∈ Transformer.trimAC F ∧ t.2.2.1 ∈ Transformer.trimAC F)
    ∧ (Transformer.trim F).I = F.I.filter (fun p => p.1 ∈ Transformer.trimAC F)
    ∧ (Transformer.trim F).finals
        = F.finals.filter (fun p => p.1 ∈ Transformer.trimAC F) := by
  refine ⟨Transformer.mem_trimAC F, Transformer.trim_Q_iff F, Transformer.trim_arcs_mem F,
    Transformer.trim_I_eq F, Transformer.trim_finals_eq F⟩

/-- C9: trim is idempotent — `trim (trim A)` has the same states, arcs,
initial weights and final weights as `trim A`. -/
theorem claim_C9 {σ α : Type} [DecidableEq σ] [DecidableEq α] [Zero α] [LT α]
    [∀ a b : α, Decidable (a < b)] (F : FSA σ α) :
    (∀ q, q ∈ (Transformer.trim (Transformer.trim F)).Q ↔ q ∈ (Transformer.trim F).Q)
    ∧ (∀ t, t ∈ (Transformer.trim (Transformer.trim F)).arcs
        ↔ t ∈ (Transformer.trim F).arcs)
    ∧ (Transformer.trim (Transformer.trim F)).I = (Transformer.trim F).I
    ∧ (Transformer.trim (Transformer.trim F)).finals = (Transformer.trim F).finals := by
  refine ⟨?_, ?_, ?_, ?_⟩
  · intro q
    rw [Transformer.trim_Q_iff (Transformer.trim F) q]
    constructor
    · rintro ⟨hacc, _⟩
      exact Transformer.trimQ_of_acc F q hacc
    · exact Transformer.trimQ_self_AC F q
  · intro t
    rw [Transformer.trim_arcs_mem (Transformer.trim F) t]
    constructor
    · rintro ⟨ht, _, _⟩
      exact ht
    · intro ht
      rcases Transformer.trim_arc_endpoints F t ht with ⟨h1, h2⟩
      exact ⟨ht, (Transformer.mem_trimAC (Transformer.trim F) t.1).mpr
          (Transformer.trimQ_self_AC F t.1 h1),
        (Transformer.mem_trimAC (Transformer.trim F) t.2.2.1).mpr
          (Transformer.trimQ_self_AC F t.2.2.1 h2)⟩
  · rw [Transformer.trim_I_eq (Transformer.trim F)]
    apply List.filter_eq_self.mpr
    intro p hp
    have := (Transformer.mem_trimAC (Transformer.trim F) p.1).mpr
      (Transformer.trimQ_self_AC F p.1 (Transformer.trim_I_states F p hp))
    simpa using this
  · rw [Transformer.trim_finals_eq (Transformer.trim F)]
    apply List.filter_eq_self.mpr
    intro p hp
    have := (Transformer.mem_trimAC (Transformer.trim F) p.1).mpr
      (Transformer.trimQ_self_AC F p.1 (Transformer.trim_finals_states F p hp))
    simpa using this

/-! ### Example automata used by witnesses -/

/-- A two-state probabilistic example automaton over `ℚ`: states `1` and
`0` (the identifier `0` names an ordinary state), arcs `1 -a-> 0` and
`0 -b-> 1`, each state with stop mass. -/
def exA : FSA Sym ℚ :=
  FSA.mk [1, 0] ["a", "b"] [(1, "a", 0, 1/2), (0, "b", 1, 1/3)] [(1, 1)]
    [(1, 1/2), (0, 2/3)] true SRTag.real

/-- An automaton with no initial states (empty normalization denominator). -/
def noInitA : FSA Sym ℚ :=
  FSA.mk [1] ["a"] [] [] [(1, 1)] true SRTag.real

/-- An automaton tagged with a non-real semiring. -/
def otherA : FSA Sym ℚ :=
  FSA.mk [1] ["a"] [] [(1, 1)] [(1, 1)] true SRTag.other

/-- A non-probabilistic automaton over the real semiring. -/
def npA : FSA Sym ℚ :=
  FSA.mk [1] ["a"] [] [(1, 1)] [(1, 2)] false SRTag.real

/-! ### Loop unfolding equations -/

namespace Sampler

theorem ancestralGo_succ [Field α] [DecidableEq α] (φ : α → α) (A : FSA Sym α)
    (fuel : Nat) (t : Tape) (q : StateId) (y : List Sym) :
    ancestralGo φ A (fuel + 1) t q y =
      match ancestralOptions φ A q with
      | .error e => .error (.py e)
      | .ok opts =>
        match draw t opts with
        | .error e => .error (.py e)
        | .ok (k, t') =>
          match k with
          | .stop => .ok (y, t')
          | .arc a q' => ancestralGo φ A fuel t' q' (y ++ [a]) := rfl

theorem lmGo_succ [LinearOrderedField α] (φ : α → α) (A : FSA Sym α)
    (transform : List Sym → Dict Sym α → Dict Sym α) (fuel : Nat) (t : Tape)
    (pqa : Dict Sym (Dict StateId α)) (a : Sym) (y : List Sym) :
    lmGo φ A transform (fuel + 1) t pqa a y =
      if a = EOS then .ok (y, t)
      else
        match dget pqa a with
        | none => .error (.py .keyError)
        | some belief =>
          match draw t belief with
          | .error e => .error (.py e)
          | .ok (q, t') =>
            if Zout φ A q = 0 then .error (.py .zeroDivisionError)
            else
              match draw t' (transform y (mkPa φ A q)) with
              | .error e => .error (.py e)
              | .ok (b, t'') => lmGo φ A transform fuel t'' (mkBeliefs φ A q) b (y ++ [b])
  := rfl

end Sampler

/-! ### Claim C1 -/

/-- C1: in plain ancestral sampling, at every step from the current state
`q` the options dict has exactly one entry per outgoing arc, keyed by its
`(symbol, destination)` pair, with probability its scaled weight over
`Z = Zout` (scaled outgoing arc weights plus the scaled final weight of
`q`), plus the synthetic stop entry with probability scaled `ρ(q)` over
`Z`; and the loop ends exactly when the stop entry is drawn — drawing any
arc entry appends the drawn symbol and continues from the drawn
destination, including a destination whose identifier is `0`. -/
theorem claim_C1 {α : Type} [Field α] [DecidableEq α] (φ : α → α) (A : FSA Sym α)
    (q : StateId) (hZ : Sampler.Zout φ A q ≠ 0)
    (hnd : ((A.arcsOf q).map (fun t => Sampler.PKey.arc t.1 t.2.1)).Nodup) :
    Sampler.ancestralOptions φ A q = .ok (Sampler.ancestralDist φ A q)
    ∧ (∀ a q' w, (a, q', w) ∈ A.arcsOf q →
        dget (Sampler.ancestralDist φ A q) (Sampler.PKey.arc a q')
          = some (φ w / Sampler.Zout φ A q))
    ∧ dget (Sampler.ancestralDist φ A q) Sampler.PKey.stop
        = some (φ (A.ρ q) / Sampler.Zout φ A q)
    ∧ (∀ k, k ∈ dkeys (Sampler.ancestralDist φ A q) ↔
        k = Sampler.PKey.stop
          ∨ ∃ a q' w, (a, q', w) ∈ A.arcsOf q ∧ k = Sampler.PKey.arc a q')
    ∧ (∀ (t : Sampler.Tape) (fuel : Nat) (y : List Sym) (k : Sampler.PKey)
        (t' : Sampler.Tape),
        Sampler.draw t (Sampler.ancestralDist φ A q) = .ok (k, t') →
          (k = Sampler.PKey.stop →
            Sampler.ancestralGo φ A (fuel + 1) t q y = .ok (y, t'))
          ∧ (∀ a q', k = Sampler.PKey.arc a q' →
            Sampler.ancestralGo φ A (fuel + 1) t q y
              = Sampler.ancestralGo φ A fuel t' q' (y ++ [a]))) := by
  have hopts : Sampler.ancestralOptions φ A q = .ok (Sampler.ancestralDist φ A q) := by
    unfold Sampler.ancestralOptions
    rw [if_neg hZ]
  refine ⟨hopts, fun a q' w h => Sampler.ancestralDist_arc φ A q a q' w hnd h,
    Sampler.ancestralDist_stop φ A q hnd, Sampler.ancestralDist_keys φ A q hnd, ?_⟩
  intro t fuel y k t' hdraw
  constructor
  · intro hk
    subst hk
    simp [Sampler.ancestralGo_succ, hopts, hdraw]
  · intro a q' hk
    subst hk
    simp [Sampler.ancestralGo_succ, hopts, hdraw]

/-- Witness for C1 at the concrete automaton `exA` from state `1`: the
tape that draws the first option picks the arc `1 -a-> 0`, and the loop
continues from the drawn destination even though its identifier is `0`. -/
theorem claim_C1_wit :
    Sampler.ancestralGo (fun w : ℚ => w) exA 5 (fun _ => 0) 1 []
      = Sampler.ancestralGo (fun w : ℚ => w) exA 4
          (Sampler.tapeTail (fun _ => 0)) 0 ([] ++ ["a"]) := by
  have h := (claim_C1 (fun w : ℚ => w) exA 1
      (by norm_num [Sampler.Zout, FSA.arcsOf, FSA.ρ, exA]) (by decide)).2.2.2.2
    (fun _ => 0) 4 [] (Sampler.PKey.arc "a" 0) (Sampler.tapeTail (fun _ => 0)) rfl
  exact h.2 "a" 0 rfl

/-! ### Claim C4 -/

/-- C4 counterexample: on a degenerate automaton with no initial states,
both samplers fail with the builtin `ValueError` from the empty draw — not
with a `DegenerateDistributionError`, which no code in `src/` ever raises
(the class does not exist there). -/
theorem claim_C4_cex :
    Sampler.ancestralY (fun w : ℚ => w) noInitA (fun _ => 0) 3
        = .error (.py .valueError)
    ∧ Sampler.lmY (fun w : ℚ => w) noInitA (fun _ p => p) (fun _ => 0) 3
        = .error (.py .valueError)
    ∧ Err.py .valueError ≠ Err.py .degenerateDistributionError
    ∧ Err.py .zeroDivisionError ≠ Err.py .degenerateDistributionError := by
  refine ⟨rfl, rfl, by decide, by decide⟩

/-- C4 (amended): on an all-zero weight mass the samplers do fail fast with
a builtin exception rather than propagating NaN — `ValueError` when there
is no initial state (empty candidate set in the draw), `ZeroDivisionError`
when a normalization denominator is zero (nonempty initial weights of zero
scaled mass, or a state whose scaled outgoing-plus-final mass is zero) —
but not with a dedicated `DegenerateDistributionError`. -/
theorem claim_C4 {α : Type} [LinearOrderedField α] (φ : α → α) (A : FSA Sym α)
    (transform : List Sym → Dict Sym α → Dict Sym α) (t : Sampler.Tape) (fuel : Nat) :
    (A.I = [] → Sampler.ancestral φ A t fuel = .error (.py .valueError))
    ∧ (A.I ≠ [] → (A.I.map (fun r => φ r.2)).sum = 0 →
        Sampler.ancestral φ A t fuel = .error (.py .zeroDivisionError))
    ∧ (∀ q y, Sampler.Zout φ A q = 0 →
        Sampler.ancestralGo φ A (fuel + 1) t q y = .error (.py .zeroDivisionError))
    ∧ (A.I = [] → Sampler.lmRun φ A transform t (fuel + 1) = .error (.py .valueError))
    ∧ (A.I ≠ [] → (A.I.map (fun r => φ r.2)).sum = 0 →
        Sampler.lmRun φ A transform t fuel = .error (.py .zeroDivisionError))
    ∧ (∀ (pqa : Dict Sym (Dict StateId α)) (b : Sym) (y : List Sym)
        (belief : Dict StateId α) (q : StateId) (t' : Sampler.Tape),
        b ≠ EOS → dget pqa b = some belief → Sampler.draw t belief = .ok (q, t') →
        Sampler.Zout φ A q = 0 →
        Sampler.lmGo φ A transform (fuel + 1) t pqa b y
          = .error (.py .zeroDivisionError)) := by
  refine ⟨?_, ?_, ?_, ?_, ?_, ?_⟩
  · intro hI
    have hIT : Sampler.initTable φ A = [] := by
      simp [Sampler.initTable, hI, dictOf]
    simp [Sampler.ancestral, hI, hIT, Sampler.draw_nil]
  · intro hI hs
    simp [Sampler.ancestral, hI, hs]
  · intro q y h
    simp [Sampler.ancestralGo_succ, Sampler.ancestralOptions, h]
  · intro hI
    have hIT : Sampler.initTable φ A = [] := by
      simp [Sampler.initTable, hI, dictOf]
    have heps : ¬ (eps = EOS) := by decide
    simp [Sampler.lmRun, hI, Sampler.lmGo_succ, hIT, heps, dictOf, dinsert,
      dget_cons, dget_nil, Sampler.draw_nil]
  · intro hI hs
    simp [Sampler.lmRun, hI, hs]
  · intro pqa b y belief q t' hbE hget hdraw hZ
    simp [Sampler.lmGo_succ, hbE, hget, hdraw, hZ]

/-- Witness for the amended C4 on the concrete no-initial-state automaton. -/
theorem claim_C4_wit :
    Sampler.ancestral (fun w : ℚ => w) noInitA (fun _ => 0) 3
      = .error (.py .valueError) :=
  (claim_C4 (fun w : ℚ => w) noInitA (fun _ p => p) (fun _ => 0) 3).1 rfl

/-! ### Claim C6 -/

/-- C6: sampler construction asserts the real semiring (failing with
Python's `AssertionError` otherwise); with the real semiring the working
automaton is the input itself when it is probabilistic, and the result of
the external `push` operation otherwise. -/
theorem claim_C6 {α : Type} (push : FSA Sym α → FSA Sym α) (gen : Nat → Sampler.Tape)
    (fsa : FSA Sym α) (scale : α → α) (seed : Nat) :
    (fsa.Rtag ≠ SRTag.real →
      Sampler.mk push gen fsa scale seed = .error (.py .assertionError))
    ∧ (fsa.Rtag = SRTag.real → fsa.probabilistic = true →
        Sampler.mk push gen fsa scale seed = .ok (Sampler.St.mk fsa scale (gen seed)))
    ∧ (fsa.Rtag = SRTag.real → fsa.probabilistic = false →
        Sampler.mk push gen fsa scale seed
          = .ok (Sampler.St.mk (push fsa) scale (gen seed))) := by
  refine ⟨?_, ?_, ?_⟩
  · intro h
    simp [Sampler.mk, h]
  · intro h1 h2
    simp [Sampler.mk, h1, h2]
  · intro h1 h2
    simp [Sampler.mk, h1, h2]

/-- Witness for C6 at concrete automata: a wrong semiring tag fails, a
probabilistic automaton is kept, a non-probabilistic one is pushed. -/
theorem claim_C6_wit :
    Sampler.mk (fun _ => exA) (fun _ _ => 0) otherA (fun w : ℚ => w) 5
        = .error (.py .assertionError)
    ∧ Sampler.mk (fun _ => exA) (fun _ _ => 0) exA (fun w : ℚ => w) 5
        = .ok (Sampler.St.mk exA (fun w : ℚ => w) (fun _ => 0))
    ∧ Sampler.mk (fun _ => exA) (fun _ _ => 0) npA (fun w : ℚ => w) 5
        = .ok (Sampler.St.mk exA (fun w : ℚ => w) (fun _ => 0)) :=
  ⟨(claim_C6 (fun _ => exA) (fun _ _ => 0) otherA (fun w : ℚ => w) 5).1 (by decide),
    (claim_C6 (fun _ => exA) (fun _ _ => 0) exA (fun w : ℚ => w) 5).2.1 rfl rfl,
    (claim_C6 (fun _ => exA) (fun _ _ => 0) npA (fun w : ℚ => w) 5).2.2 rfl rfl⟩

/-! ### Claim C8 -/

/-- C8: sampler construction plus `sample(K)` is a deterministic function
of the seed, the automaton and the call arguments — two runs with equal
seeds produce identical output lists.  In this embedding every stateful
ingredient (the generator tape, its consumption order across the `K`
sequential samples) is threaded explicitly, so the run is a pure
function. -/
theorem claim_C8 {α : Type} [LinearOrderedField α] (push : FSA Sym α → FSA Sym α)
    (gen : Nat → Sampler.Tape) (fsa : FSA Sym α) (scale : α → α)
    (transform : List Sym → Dict Sym α → Dict Sym α) (lm : Bool)
    (fuel K seed₁ seed₂ : Nat) (h : seed₁ = seed₂) :
    Sampler.sampleRun push gen fsa scale seed₁ transform lm fuel K
      = Sampler.sampleRun push gen fsa scale seed₂ transform lm fuel K := by
  rw [h]

/-- Witness for C8 with two concrete equal seeds. -/
theorem claim_C8_wit :
    Sampler.sampleRun (fun A => A) (fun s _ => s) exA (fun w : ℚ => w) 7
        (fun _ p => p) false 4 2
      = Sampler.sampleRun (fun A => A) (fun s _ => s) exA (fun w : ℚ => w) 7
        (fun _ p => p) false 4 2 :=
  claim_C8 (fun A => A) (fun s _ => s) exA (fun w : ℚ => w) (fun _ p => p) false 4 2 7 7
    rfl

/-! ### Claim C7 -/

/-- If the autoregressive loop returns normally, the returned list keeps
the head of the accumulator it started from, and its last element is the
`EOS` that ended the loop. -/
theorem lmGo_ok_shape {α : Type} [LinearOrderedField α] (φ : α → α) (A : FSA Sym α)
    (transform : List Sym → Dict Sym α → Dict Sym α) :
    ∀ (fuel : Nat) (t : Sampler.Tape) (pqa : Dict Sym (Dict StateId α)) (a : Sym)
      (y₀ y : List Sym) (t' : Sampler.Tape), y₀ ≠ [] → y₀.getLast? = some a →
      Sampler.lmGo φ A transform fuel t pqa a y₀ = .ok (y, t') →
      y.head? = y₀.head? ∧ y.getLast? = some EOS := by
  intro fuel
  induction fuel with
  | zero =>
    intro t pqa a y₀ y t' _ _ h
    cases h
  | succ fuel ih =>
    intro t pqa a y₀ y t' hne hlast h
    rw [Sampler.lmGo_succ] at h
    by_cases hEOS : a = EOS
    · rw [if_pos hEOS] at h
      cases h
      exact ⟨rfl, hEOS ▸ hlast⟩
    · rw [if_neg hEOS] at h
      cases hget : dget pqa a with
      | none =>
        simp only [hget] at h
        cases h
      | some belief =>
        simp only [hget] at h
        cases hd1 : Sampler.draw t belief with
        | error e =>
          simp only [hd1] at h
          cases h
        | ok p =>
          simp only [hd1] at h
          by_cases hZ : Sampler.Zout φ A p.1 = 0
          · rw [if_pos hZ] at h; cases h
          · rw [if_neg hZ] at h
            cases hd2 : Sampler.draw p.2 (transform y₀ (Sampler.mkPa φ A p.1)) with
            | error e =>
              simp only [hd2] at h
              cases h
            | ok r =>
              simp only [hd2] at h
              have hres := ih r.2 (Sampler.mkBeliefs φ A p.1) r.1 (y₀ ++ [r.1]) y t'
                (by simp) (by simp) h
              rcases hres with ⟨hhead, hlast'⟩
              refine ⟨?_, hlast'⟩
              rw [hhead]
              rcases List.exists_cons_of_ne_nil hne with ⟨c, cs, hc⟩
              rw [hc]
              simp

/-- Concrete evaluation of one autoregressive run on `exA`: the tape draws
the initial state, then `EOS` from the marginal dict; the returned list is
the full accumulator `[ε, EOS]`. -/
theorem exA_lmY_eval :
    Sampler.lmY (fun w : ℚ => w) exA (fun _ p => p)
        (fun n => if n = 1 then 2 else 0) 3 = .ok [eps, EOS] := by
  have hZ : ¬ (Sampler.Zout (fun w : ℚ => w) exA 1 = 0) := by
    norm_num [Sampler.Zout, FSA.arcsOf, FSA.ρ, exA]
  have hc : ¬ (exA.I ≠ [] ∧ ((exA.I.map (fun r => (fun w : ℚ => w) r.2)).sum = 0)) := by
    norm_num [exA]
  have hrun : Sampler.lmRun (fun w : ℚ => w) exA (fun _ p => p)
      (fun n => if n = 1 then 2 else 0) 3
        = .ok ([eps, EOS],
            Sampler.tapeTail (Sampler.tapeTail (fun n => if n = 1 then 2 else 0))) := by
    unfold Sampler.lmRun
    rw [if_neg hc]
    calc
      Sampler.lmGo (fun w : ℚ => w) exA (fun _ p => p) 3 (fun n => if n = 1 then 2 else 0)
          (dictOf [(eps, Sampler.initTable (fun w : ℚ => w) exA)]) eps [eps]
        = if Sampler.Zout (fun w : ℚ => w) exA 1 = 0
            then Except.error (Err.py PyErr.zeroDivisionError)
            else .ok ([eps, EOS],
              Sampler.tapeTail (Sampler.tapeTail (fun n => if n = 1 then 2 else 0))) := rfl
      _ = .ok ([eps, EOS],
            Sampler.tapeTail (Sampler.tapeTail (fun n => if n = 1 then 2 else 0))) :=
          if_neg hZ
  unfold Sampler.lmY
  rw [hrun]
  rfl

/-- C7 counterexample: a concrete autoregressive run returns the whole
accumulated list, leading empty-prefix marker `ε` included (and trailing
`EOS`), both as a symbol sequence and joined into a string. -/
theorem claim_C7_cex :
    Sampler.lmY (fun w : ℚ => w) exA (fun _ p => p)
        (fun n => if n = 1 then 2 else 0) 3 = .ok [eps, EOS]
    ∧ Sampler.lmString (fun w : ℚ => w) exA (fun _ p => p)
        (fun n => if n = 1 then 2 else 0) 3 = .ok "εEOS" := by
  refine ⟨exA_lmY_eval, ?_⟩
  unfold Sampler.lmString
  rw [exA_lmY_eval]
  rfl

/-- C7 (amended): the sequence returned by autoregressive sampling is the
whole accumulated list `y` — line 150 returns `y` unstripped — so every
normally returned sample *starts with* the empty-prefix marker `ε` (and
ends with the `EOS` that stopped the loop); nothing excludes the leading
sentinel, in either the sequence or the joined-string form. -/
theorem claim_C7 {α : Type} [LinearOrderedField α] (φ : α → α) (A : FSA Sym α)
    (transform : List Sym → Dict Sym α → Dict Sym α) (t : Sampler.Tape) (fuel : Nat)
    (y : List Sym) (h : Sampler.lmY φ A transform t fuel = .ok y) :
    y.head? = some eps ∧ y.getLast? = some EOS := by
  unfold Sampler.lmY Sampler.lmRun at h
  by_cases hc : A.I ≠ [] ∧ (A.I.map (fun r => φ r.2)).sum = 0
  · rw [if_pos hc] at h
    cases h
  · rw [if_neg hc] at h
    cases hgo : Sampler.lmGo φ A transform fuel t
        (dictOf [(eps, Sampler.initTable φ A)]) eps [eps] with
    | error e => rw [hgo] at h; cases h
    | ok p =>
      rw [hgo] at h
      have hy : y = p.1 := by
        cases h
        rfl
      subst hy
      have := lmGo_ok_shape φ A transform fuel t
        (dictOf [(eps, Sampler.initTable φ A)]) eps [eps] p.1 p.2
        (by simp) (by simp) hgo
      simpa using this

/-- Witness for the amended C7 on the concrete run of the
counterexample. -/
theorem claim_C7_wit :
    ([eps, EOS] : List Sym).head? = some eps
      ∧ ([eps, EOS] : List Sym).getLast? = some EOS :=
  claim_C7 (fun w : ℚ => w) exA (fun _ p => p) (fun n => if n = 1 then 2 else 0) 3
    [eps, EOS] exA_lmY_eval

/-! ### Claim C5 -/

/-- Lookup in the initial-state dict built by both samplers. -/
theorem dget_initTable {α : Type} [Field α] [DecidableEq α] (φ : α → α) (A : FSA Sym α)
    (hndI : (A.I.map Prod.fst).Nodup) (p : StateId) (w : α) (hmem : (p, w) ∈ A.I) :
    dget (Sampler.initTable φ A) p = some (φ w / (A.I.map (fun r => φ r.2)).sum) := by
  unfold Sampler.initTable
  have hkeys : ((A.I.map (fun r => (r.1, φ r.2 / (A.I.map (fun s => φ s.2)).sum))).map
      Prod.fst).Nodup := by
    rw [List.map_map]
    exact hndI
  rw [dictOf_nodupKeys _ hkeys]
  apply dget_of_mem_nodup _ _ _ hkeys
  exact List.mem_map.mpr ⟨(p, w), hmem, rfl⟩

/-- C5: with weights in `ℝ` and the temperature scaling
`_w(w) = w ^ (1/T)`, every probability the sampler normalizes is the
*raw* weight raised to `1/T` divided by the sum of the raw weights raised
to `1/T`: this holds for the initial-weight dict, for every arc entry of
the options dict, and for the stop entry — the transform is applied to the
raw weights before normalization, never to an already-normalized
probability. -/
theorem claim_C5 (T : ℝ) (A : FSA Sym ℝ) (q : StateId)
    (hnd : ((A.arcsOf q).map (fun t => Sampler.PKey.arc t.1 t.2.1)).Nodup)
    (hndI : (A.I.map Prod.fst).Nodup) :
    (∀ a q' w, (a, q', w) ∈ A.arcsOf q →
      dget (Sampler.ancestralDist (fun v : ℝ => v ^ (1/T)) A q) (Sampler.PKey.arc a q')
        = some (w ^ (1/T)
            / (((A.arcsOf q).map (fun t => t.2.2 ^ (1/T))).sum + (A.ρ q) ^ (1/T))))
    ∧ dget (Sampler.ancestralDist (fun v : ℝ => v ^ (1/T)) A q) Sampler.PKey.stop
        = some ((A.ρ q) ^ (1/T)
            / (((A.arcsOf q).map (fun t => t.2.2 ^ (1/T))).sum + (A.ρ q) ^ (1/T)))
    ∧ (∀ p w, (p, w) ∈ A.I →
        dget (Sampler.initTable (fun v : ℝ => v ^ (1/T)) A) p
          = some (w ^ (1/T) / (A.I.map (fun r => r.2 ^ (1/T))).sum)) := by
  refine ⟨?_, ?_, ?_⟩
  · intro a q' w hmem
    exact Sampler.ancestralDist_arc (fun v : ℝ => v ^ (1/T)) A q a q' w hnd hmem
  · exact Sampler.ancestralDist_stop (fun v : ℝ => v ^ (1/T)) A q hnd
  · intro p w hmem
    exact dget_initTable (fun v : ℝ => v ^ (1/T)) A hndI p w hmem

/-- Witness for C5 at temperature `1` on a concrete real-weighted
automaton: the arc entry of the options dict is the scaled raw weight over
the sum of scaled raw weights. -/
theorem claim_C5_wit :
    dget (Sampler.ancestralDist (fun v : ℝ => v ^ (1/(1:ℝ)))
        (FSA.mk [1, 0] ["a"] [(1, "a", 0, 1/2)] [(1, 1)] [(1, 1/2)] true SRTag.real) 1)
      (Sampler.PKey.arc "a" 0)
      = some (((1:ℝ)/2) ^ (1/(1:ℝ))
          / ((((FSA.mk [1, 0] ["a"] [(1, "a", 0, (1:ℝ)/2)] [(1, 1)] [(1, 1/2)] true
              SRTag.real).arcsOf 1).map (fun t => t.2.2 ^ (1/(1:ℝ)))).sum
            + ((FSA.mk [1, 0] ["a"] [(1, "a", 0, (1:ℝ)/2)] [(1, 1)] [(1, 1/2)] true
              SRTag.real).ρ 1) ^ (1/(1:ℝ)))) := by
  exact (claim_C5 1
      (FSA.mk [1, 0] ["a"] [(1, "a", 0, 1/2)] [(1, 1)] [(1, 1/2)] true SRTag.real) 1
      (by decide) (by decide)).1 "a" 0 (1/2)
    (show _ ∈ [("a", (0:StateId), (1:ℝ)/2)] from List.mem_singleton.mpr rfl)

/-! ### Claim C10 -/

/-- The only exception the draw primitive raises is `ValueError`. -/
theorem draw_error_eq (t : Sampler.Tape) (d : Dict κ α) (e : PyErr)
    (h : Sampler.draw t d = .error e) : e = .valueError := by
  unfold Sampler.draw at h
  by_cases hl : d.length = 0
  · rw [dif_pos hl] at h
    injection h with h
    exact h.symm
  · rw [dif_neg hl] at h
    cases h

theorem mem_dkeys_dinsert [DecidableEq κ] (k k' : κ) (v : β) (d : Dict κ β)
    (h : k' ∈ dkeys (dinsert k v d)) : k' ∈ dkeys d ∨ k' = k := by
  unfold dinsert at h
  by_cases ha : d.any (fun p => p.1 = k) = true
  · rw [if_pos ha] at h
    unfold dkeys at h
    rw [List.map_map] at h
    rcases List.mem_map.mp h with ⟨p, hp, he⟩
    by_cases hpk : p.1 = k
    · right
      rw [← he]
      simp [Function.comp, hpk]
    · left
      have : (Prod.fst ∘ fun r : κ × β => if r.1 = k then (k, v) else r) p = p.1 := by
        simp [Function.comp, hpk]
      rw [this] at he
      exact List.mem_map.mpr ⟨p, hp, he⟩
  · rw [if_neg ha] at h
    unfold dkeys at h
    rw [List.map_append, List.mem_append] at h
    rcases h with h | h
    · exact Or.inl h
    · right
      simpa using h

theorem dkeys_dictOf_subset [DecidableEq κ] (l : Dict κ β) (k : κ)
    (h : k ∈ dkeys (dictOf l)) : k ∈ l.map Prod.fst := by
  have main : ∀ (l acc : Dict κ β), k ∈ dkeys (l.foldl (fun d p => dinsert p.1 p.2 d) acc) →
      k ∈ dkeys acc ∨ k ∈ l.map Prod.fst := by
    intro l
    induction l with
    | nil => intro acc h; exact Or.inl h
    | cons p l ih =>
      intro acc h
      rw [List.foldl_cons] at h
      rcases ih (dinsert p.1 p.2 acc) h with h | h
      · rcases mem_dkeys_dinsert p.1 k p.2 acc h with h | h
        · exact Or.inl h
        · exact Or.inr (by simp [h])
      · exact Or.inr (List.mem_map.mp h |>.elim (fun r hr => by
          simp only [List.map_cons, List.mem_cons]
          exact Or.inr (List.mem_map.mpr ⟨r, hr.1, hr.2⟩)))
  rcases main l [] h with h | h
  · cases h
  · exact h

/-- Safety of the autoregressive loop: when the transformed next-symbol
distribution from every reachable state only puts keys on `EOS` or on
alphabet symbols of strictly positive arc mass, and the belief dicts only
mention states of `Q`, the loop never hits the missing-key error. -/
theorem lmGo_no_keyError {α : Type} [LinearOrderedField α] (φ : α → α) (A : FSA Sym α)
    (transform : List Sym → Dict Sym α → Dict Sym α) (hsig : A.Sigma.Nodup)
    (H : ∀ (y : List Sym) (q : StateId), q ∈ A.Q →
      ∀ b ∈ dkeys (transform y (Sampler.mkPa φ A q)),
        b = EOS ∨ (b ∈ A.Sigma ∧ 0 < Sampler.Zqa φ A q b)) :
    ∀ (fuel : Nat) (t : Sampler.Tape) (pqa : Dict Sym (Dict StateId α)) (a : Sym)
      (y : List Sym),
      (a = EOS ∨ (dget pqa a).isSome = true) →
      (∀ b d, dget pqa b = some d → ∀ k ∈ dkeys d, k ∈ A.Q) →
      Sampler.lmGo φ A transform fuel t pqa a y ≠ .error (.py .keyError) := by
  intro fuel
  induction fuel with
  | zero =>
    intro t pqa a y _ _ hc
    rw [show Sampler.lmGo φ A transform 0 t pqa a y = .error .fuel from rfl] at hc
    injection hc with hc
    cases hc
  | succ fuel ih =>
    intro t pqa a y hinv hdict
    rw [Sampler.lmGo_succ]
    by_cases hEOS : a = EOS
    · rw [if_pos hEOS]
      intro hc
      cases hc
    · rw [if_neg hEOS]
      have hsome : (dget pqa a).isSome = true := by
        rcases hinv with h | h
        · exact absurd h hEOS
        · exact h
      obtain ⟨belief, hb⟩ := Option.isSome_iff_exists.mp hsome
      simp only [hb]
      cases hd1 : Sampler.draw t belief with
      | error e =>
        simp only [hd1]
        rw [draw_error_eq t belief e hd1]
        intro hc
        injection hc with hc
        cases hc
      | ok p =>
        simp only [hd1]
        by_cases hZ : Sampler.Zout φ A p.1 = 0
        · rw [if_pos hZ]
          intro hc
          injection hc with hc
          cases hc
        · rw [if_neg hZ]
          have hqQ : p.1 ∈ A.Q :=
            hdict a belief hb p.1 (Sampler.draw_mem t belief p.1 p.2 hd1)
          cases hd2 : Sampler.draw p.2 (transform y (Sampler.mkPa φ A p.1)) with
          | error e =>
            simp only [hd2]
            rw [draw_error_eq p.2 _ e hd2]
            intro hc
            injection hc with hc
            cases hc
          | ok r =>
            simp only [hd2]
            apply ih
            · rcases H y p.1 hqQ r.1
                (Sampler.draw_mem p.2 _ r.1 r.2 hd2) with hE | ⟨hbS, hpos⟩
              · exact Or.inl hE
              · right
                rw [Sampler.dget_mkBeliefs φ A p.1 hsig r.1, if_pos ⟨hbS, hpos⟩]
                rfl
            · intro b d hbd k hk
              rw [Sampler.dget_mkBeliefs φ A p.1 hsig b] at hbd
              by_cases hcond : b ∈ A.Sigma ∧ 0 < Sampler.Zqa φ A p.1 b
              · rw [if_pos hcond] at hbd
                injection hbd with hbd
                rw [← hbd] at hk
                have hsub := dkeys_dictOf_subset _ k hk
                rw [List.map_map] at hsub
                have hco : (Prod.fst ∘ fun q' : StateId =>
                    (q', Sampler.ZqaTo φ A p.1 b q' / Sampler.Zqa φ A p.1 b)) = id := rfl
                rw [hco, List.map_id] at hsub
                exact hsub
              · rw [if_neg hcond] at hbd
                cases hbd

/-- C10: the belief dict built at a step contains an entry exactly for the
alphabet symbols whose scaled arc mass from the drawn state is strictly
positive; a drawn symbol other than `EOS` that is not among those keys
makes the next iteration's belief lookup fail with the missing-key error —
in particular a symbol of zero arc mass does; and under the precondition
that the transformed distribution's keys always lie among the
positive-mass symbols plus `EOS`, the loop (and hence a whole
autoregressive sample) never raises the missing-key error. -/
theorem claim_C10 {α : Type} [LinearOrderedField α] (φ : α → α) (A : FSA Sym α)
    (transform : List Sym → Dict Sym α → Dict Sym α) (hsig : A.Sigma.Nodup)
    (hI : ∀ p ∈ A.I, p.1 ∈ A.Q) :
    (∀ q b, (dget (Sampler.mkBeliefs φ A q) b).isSome = true
        ↔ b ∈ A.Sigma ∧ 0 < Sampler.Zqa φ A q b)
    ∧ (∀ (fuel : Nat) (t : Sampler.Tape) (pqa : Dict Sym (Dict StateId α)) (b : Sym)
        (y : List Sym), b ≠ EOS → dget pqa b = none →
        Sampler.lmGo φ A transform (fuel + 1) t pqa b y = .error (.py .keyError))
    ∧ (∀ (fuel : Nat) (t : Sampler.Tape) (q : StateId) (b : Sym) (y : List Sym),
        b ≠ EOS → Sampler.Zqa φ A q b = 0 →
        Sampler.lmGo φ A transform (fuel + 1) t (Sampler.mkBeliefs φ A q) b y
          = .error (.py .keyError))
    ∧ ((∀ (y : List Sym) (q : StateId), q ∈ A.Q →
          ∀ b ∈ dkeys (transform y (Sampler.mkPa φ A q)),
            b = EOS ∨ (b ∈ A.Sigma ∧ 0 < Sampler.Zqa φ A q b)) →
        ∀ (t : Sampler.Tape) (fuel : Nat),
          Sampler.lmY φ A transform t fuel ≠ .error (.py .keyError)) := by
  have hbel_none : ∀ q b, Sampler.Zqa φ A q b = 0 →
      dget (Sampler.mkBeliefs φ A q) b = none := by
    intro q b hz
    rw [Sampler.dget_mkBeliefs φ A q hsig b, if_neg]
    rintro ⟨_, hpos⟩
    rw [hz] at hpos
    exact lt_irrefl 0 hpos
  refine ⟨?_, ?_, ?_, ?_⟩
  · intro q b
    rw [Sampler.dget_mkBeliefs φ A q hsig b]
    by_cases h : b ∈ A.Sigma ∧ 0 < Sampler.Zqa φ A q b
    · rw [if_pos h]
      simpa using h
    · rw [if_neg h]
      simpa using h
  · intro fuel t pqa b y hbE hnone
    rw [Sampler.lmGo_succ, if_neg hbE]
    simp only [hnone]
  · intro fuel t q b y hbE hz
    rw [Sampler.lmGo_succ, if_neg hbE]
    simp only [hbel_none q b hz]
  · intro H t fuel hc
    unfold Sampler.lmY Sampler.lmRun at hc
    by_cases hcond : A.I ≠ [] ∧ (A.I.map (fun r => φ r.2)).sum = 0
    · rw [if_pos hcond] at hc
      injection hc with hc
      cases hc
    · rw [if_neg hcond] at hc
      cases hgo : Sampler.lmGo φ A transform fuel t
          (dictOf [(eps, Sampler.initTable φ A)]) eps [eps] with
      | error e =>
        rw [hgo] at hc
        injection hc with hc
        rw [hc] at hgo
        apply lmGo_no_keyError φ A transform hsig H fuel t
            (dictOf [(eps, Sampler.initTable φ A)]) eps [eps] ?_ ?_ hgo
        · right
          rw [show dictOf [(eps, Sampler.initTable φ A)]
              = [(eps, Sampler.initTable φ A)] from rfl, dget_cons]
          simp
        · intro b d hbd k hk
          rw [show dictOf [(eps, Sampler.initTable φ A)]
              = [(eps, Sampler.initTable φ A)] from rfl, dget_cons] at hbd
          by_cases hbe : eps = b
          · rw [if_pos hbe] at hbd
            injection hbd with hbd
            rw [← hbd] at hk
            have hsub := dkeys_dictOf_subset _ k (by
              simpa [Sampler.initTable] using hk)
            rw [List.map_map] at hsub
            have hco : (Prod.fst ∘ fun r : StateId × α =>
                (r.1, φ r.2 / (A.I.map (fun s => φ s.2)).sum)) = Prod.fst := rfl
            rw [hco] at hsub
            rcases List.mem_map.mp hsub with ⟨r, hr, he⟩
            exact he ▸ hI r hr
          · rw [if_neg hbe, dget_nil] at hbd
            cases hbd
      | ok p =>
        rw [hgo] at hc
        cases hc

/-- Witness for C10 on `exA`: from state `1` the symbol `"b"` has zero arc
mass, so drawing it (other than `EOS`) makes the next lookup fail with the
missing-key error. -/
theorem claim_C10_wit :
    Sampler.lmGo (fun w : ℚ => w) exA (fun _ p => p) (3 + 1) (fun _ => 0)
        (Sampler.mkBeliefs (fun w : ℚ => w) exA 1) "b" [eps]
      = .error (.py .keyError) :=
  (claim_C10 (fun w : ℚ => w) exA (fun _ p => p) (by decide) (by decide)).2.2.1
    3 (fun _ => 0) 1 "b" [eps] (by decide) rfl

/-! ### Claim C3 -/

/-- Summing a guarded map is summing the map over the filtered list. -/
theorem sum_map_ite_filter [AddCommMonoid M] (l : List A) (p : A → Prop)
    [DecidablePred p] (f : A → M) :
    (l.map (fun x => if p x then f x else 0)).sum
      = ((l.filter (fun x => p x)).map f).sum := by
  induction l with
  | nil => simp
  | cons a l ih =>
    by_cases h : p a
    · rw [List.map_cons, List.sum_cons, if_pos h,
        List.filter_cons_of_pos (by simpa using h), List.map_cons, List.sum_cons, ih]
    · rw [List.map_cons, List.sum_cons, if_neg h,
        List.filter_cons_of_neg (by simpa using h), ih, zero_add]

/-- C3: plain ancestral sampling and autoregressive sampling with the
identity transform induce the same distribution over emitted symbol
sequences: from every state the probability of emitting exactly `s` and
stopping coincides for the two step semantics (drawing an arc jointly
versus drawing the symbol marginal then the state belief), and hence so
does the full-run distribution starting from the normalized initial
weights.  (The autoregressive run additionally wraps the content `s` as
`ε · s · EOS` — the reparameterization of the same process.) -/
theorem claim_C3 {α : Type} [LinearOrderedField α] (φ : α → α) (A : FSA Sym α)
    (hw : ∀ u ∈ A.arcs, 0 ≤ φ u.2.2.2) (hQnd : A.Q.Nodup)
    (hdst : ∀ u ∈ A.arcs, u.2.2.1 ∈ A.Q) (hlab : ∀ u ∈ A.arcs, u.2.1 ∈ A.Sigma) :
    (∀ (q : StateId) (s : List Sym), Sampler.plainP φ A q s = Sampler.lmP φ A q s)
    ∧ (∀ s : List Sym, Sampler.plainFull φ A s = Sampler.lmFull φ A s) := by
  have main : ∀ (s : List Sym) (q : StateId),
      Sampler.plainP φ A q s = Sampler.lmP φ A q s := by
    intro s
    induction s with
    | nil => intro q; rfl
    | cons b s ih =>
      intro q
      rw [show Sampler.plainP φ A q (b :: s)
          = ((A.arcsOf q).map (fun t => if t.1 = b
              then (φ t.2.2 / Sampler.Zout φ A q) * Sampler.plainP φ A t.2.1 s
              else 0)).sum from rfl]
      rw [show Sampler.lmP φ A q (b :: s)
          = (if b ∈ A.Sigma ∧ 0 < Sampler.Zqa φ A q b then
              (Sampler.Zqa φ A q b / Sampler.Zout φ A q) *
                ((A.Q.map (fun q' => (Sampler.ZqaTo φ A q b q' / Sampler.Zqa φ A q b)
                  * Sampler.lmP φ A q' s)).sum)
            else 0) from rfl]
      by_cases hb : b ∈ A.Sigma ∧ 0 < Sampler.Zqa φ A q b
      · rw [if_pos hb]
        have hZb : Sampler.Zqa φ A q b ≠ 0 := ne_of_gt hb.2
        calc
          ((A.arcsOf q).map (fun t => if t.1 = b
              then (φ t.2.2 / Sampler.Zout φ A q) * Sampler.plainP φ A t.2.1 s
              else 0)).sum
            = (((A.arcsOf q).filter (fun t => t.1 = b)).map
                (fun t => (φ t.2.2 / Sampler.Zout φ A q)
                  * Sampler.plainP φ A t.2.1 s)).sum := by
              rw [sum_map_ite_filter]
          _ = (A.Q.map (fun q' =>
                ((((A.arcsOf q).filter (fun t => t.1 = b)).filter
                    (fun t => t.2.1 = q')).map
                  (fun t => (φ t.2.2 / Sampler.Zout φ A q)
                    * Sampler.plainP φ A t.2.1 s)).sum)).sum := by
              rw [sum_partition ((A.arcsOf q).filter (fun t => t.1 = b)) A.Q
                (fun t => t.2.1)
                (fun t => (φ t.2.2 / Sampler.Zout φ A q) * Sampler.plainP φ A t.2.1 s)
                hQnd]
              intro t ht
              have htm : t ∈ A.arcsOf q := List.mem_of_mem_filter ht
              exact hdst (q, t) ((Transformer.mem_arcsOf A q t).mp htm)
          _ = (A.Q.map (fun q' =>
                ((((A.arcsOf q).filter (fun t => t.1 = b)).filter
                    (fun t => t.2.1 = q')).map
                  (fun t => (φ t.2.2 / Sampler.Zout φ A q)
                    * Sampler.plainP φ A q' s)).sum)).sum := by
              apply congrArg List.sum
              apply List.map_congr_left
              intro q' _
              apply congrArg List.sum
              apply List.map_congr_left
              intro t ht
              have : t.2.1 = q' := by simpa using (List.mem_filter.mp ht).2
              rw [this]
          _ = (A.Q.map (fun q' =>
                (Sampler.ZqaTo φ A q b q' / Sampler.Zout φ A q)
                  * Sampler.plainP φ A q' s)).sum := by
              apply congrArg List.sum
              apply List.map_congr_left
              intro q' _
              have hfilt : ((A.arcsOf q).filter (fun t => t.1 = b)).filter
                    (fun t => t.2.1 = q')
                  = (A.arcsOf q).filter (fun t => t.1 = b ∧ t.2.1 = q') := by
                rw [List.filter_filter]
                apply List.filter_congr
                intro t _
                by_cases h1 : t.1 = b
                · by_cases h2 : t.2.1 = q' <;> simp [h1, h2]
                · by_cases h2 : t.2.1 = q' <;> simp [h1, h2]
              rw [hfilt]
              unfold Sampler.ZqaTo
              calc
                (((A.arcsOf q).filter (fun t => t.1 = b ∧ t.2.1 = q')).map
                    (fun t => φ t.2.2 / Sampler.Zout φ A q
                      * Sampler.plainP φ A q' s)).sum
                  = (((A.arcsOf q).filter (fun t => t.1 = b ∧ t.2.1 = q')).map
                      (fun t => φ t.2.2
                        * ((Sampler.Zout φ A q)⁻¹ * Sampler.plainP φ A q' s))).sum := by
                    apply congrArg List.sum
                    apply List.map_congr_left
                    intro t _
                    ring
                _ = (((A.arcsOf q).filter (fun t => t.1 = b ∧ t.2.1 = q')).map
                      (fun t => φ t.2.2)).sum
                        * ((Sampler.Zout φ A q)⁻¹ * Sampler.plainP φ A q' s) := by
                    rw [List.sum_map_mul_right]
                _ = (((A.arcsOf q).filter (fun t => t.1 = b ∧ t.2.1 = q')).map
                      (fun t => φ t.2.2)).sum / Sampler.Zout φ A q
                        * Sampler.plainP φ A q' s := by
                    ring
          _ = (A.Q.map (fun q' =>
                (Sampler.Zqa φ A q b / Sampler.Zout φ A q) *
                  ((Sampler.ZqaTo φ A q b q' / Sampler.Zqa φ A q b)
                    * Sampler.plainP φ A q' s))).sum := by
              apply congrArg List.sum
              apply List.map_congr_left
              intro q' _
              have hcan : Sampler.ZqaTo φ A q b q' / Sampler.Zqa φ A q b
                  * Sampler.Zqa φ A q b = Sampler.ZqaTo φ A q b q' :=
                div_mul_cancel₀ _ hZb
              calc
                Sampler.ZqaTo φ A q b q' / Sampler.Zout φ A q * Sampler.plainP φ A q' s
                  = (Sampler.ZqaTo φ A q b q' / Sampler.Zqa φ A q b
                      * Sampler.Zqa φ A q b) / Sampler.Zout φ A q
                        * Sampler.plainP φ A q' s := by rw [hcan]
                _ = Sampler.Zqa φ A q b / Sampler.Zout φ A q *
                      (Sampler.ZqaTo φ A q b q' / Sampler.Zqa φ A q b
                        * Sampler.plainP φ A q' s) := by ring
          _ = Sampler.Zqa φ A q b / Sampler.Zout φ A q *
                ((A.Q.map (fun q' => (Sampler.ZqaTo φ A q b q' / Sampler.Zqa φ A q b)
                  * Sampler.lmP φ A q' s)).sum) := by
              rw [List.sum_map_mul_left]
              apply congrArg
              apply congrArg List.sum
              apply List.map_congr_left
              intro q' _
              rw [ih q']
      · rw [if_neg hb]
        apply List.sum_eq_zero
        intro x hx
        rcases List.mem_map.mp hx with ⟨t, ht, he⟩
        rw [← he]
        by_cases htb : t.1 = b
        · rw [if_pos htb]
          by_cases hbS : b ∈ A.Sigma
          · have hge : 0 ≤ Sampler.Zqa φ A q b := by
              apply List.sum_nonneg
              intro x hx
              rcases List.mem_map.mp hx with ⟨u, hu, hux⟩
              rw [← hux]
              exact hw (q, u)
                ((Transformer.mem_arcsOf A q u).mp (List.mem_of_mem_filter hu))
            have hzq : Sampler.Zqa φ A q b = 0 := by
              rcases lt_or_eq_of_le hge with hlt | heq
              · exact absurd ⟨hbS, hlt⟩ hb
              · exact heq.symm
            have hzq' : (((A.arcsOf q).filter (fun u => u.1 = b)).map
                (fun u => φ u.2.2)).sum = 0 := hzq
            have hzero : φ t.2.2 = 0 :=
              sum_map_eq_zero_nonneg ((A.arcsOf q).filter (fun u => u.1 = b))
                (fun u => φ u.2.2)
                (fun u hu => hw (q, u)
                  ((Transformer.mem_arcsOf A q u).mp (List.mem_of_mem_filter hu)))
                hzq' t (List.mem_filter.mpr ⟨ht, by simpa using htb⟩)
            rw [hzero]
            simp
          · exact absurd (htb ▸ hlab (q, t) ((Transformer.mem_arcsOf A q t).mp ht)) hbS
        · rw [if_neg htb]
  refine ⟨fun q s => main s q, ?_⟩
  intro s
  unfold Sampler.plainFull Sampler.lmFull
  apply congrArg List.sum
  apply List.map_congr_left
  intro p _
  rw [main s p.1]

/-- Witness for C3 on `exA`: from state `1` the probability of emitting
`["a"]` agrees between the two semantics. -/
theorem claim_C3_wit :
    Sampler.plainP (fun w : ℚ => w) exA 1 ["a"]
      = Sampler.lmP (fun w : ℚ => w) exA 1 ["a"] :=
  (claim_C3 (fun w : ℚ => w) exA (by norm_num [exA]) (by decide) (by decide)
    (by decide)).1 1 ["a"]

end RRNN
